import Mathlib

/-!
Verification of the document-intelligence pipeline (ai-document-analyzer).

Shallow embedding of the services under `app/`:
  * `text_cleaning_service.clean_ocr_text` (regex pipeline over characters)
  * `chunking_service.chunk_text_hierarchical` (parent/child chunking)
  * `mongodb_service.save_parent_chunks` / `get_parent_chunks_by_ids`
  * `query_service.format_query_for_search` / `build_rag_prompt`
  * `routers.query_route.query_documents`
  * `routers.summarize_route.summarize_uploaded_document`
  * `document_metadata_service.update_document_status`
  * `document_processor.process_document` (sync and async variants)

External collaborators (LLM, embeddings, vector index, database transport)
are modelled as environment records holding each call's outcome; the
control flow, data flow and persisted record shapes are translated from
the Python source.  Python regex semantics (leftmost match, greedy with
backtracking, MULTILINE anchors) are reproduced at character level,
restricted to the ASCII character classes.
-/

namespace DocAnalyzer

/-! ### Character classes (ASCII scope of the regex classes used) -/

/-- Python regex `\s` at ASCII scope. -/
def isWsChar (c : Char) : Bool :=
  c = ' ' || c = '\t' || c = '\n' || c = '\r' || c = '\x0b' || c = '\x0c'

/-- Python regex `\w` at ASCII scope. -/
def isWordChar (c : Char) : Bool :=
  c.isAlphanum || c = '_'

/-- The page-number artifact class `[\dIVXLCDMivxlcdm]` from
`text_cleaning_service.py`. -/
def isPageNumChar (c : Char) : Bool :=
  c.isDigit || c = 'I' || c = 'V' || c = 'X' || c = 'L' || c = 'C' || c = 'D' || c = 'M'
    || c = 'i' || c = 'v' || c = 'x' || c = 'l' || c = 'c' || c = 'd' || c = 'm'

/-! ### Step 1: `re.sub(r'(\w+)-\s*\n\s*(\w+)', r'\1\2', text)` -/

/-- Attempt the hyphenation-repair match at the head of `cs`.
On success returns the replacement text `\1\2` together with the rest of
the input after the match.  The match requires: a nonempty `\w` run, a
literal `-`, a whitespace run containing at least one newline, then a
nonempty `\w` run (greedy, maximal runs — shorter runs always fail the
following literal, so backtracking never helps). -/
def hyphenMatch (cs : List Char) : Option (List Char × List Char) :=
  let w1 := cs.takeWhile isWordChar
  let r1 := cs.dropWhile isWordChar
  if w1.isEmpty then none else
  match r1 with
  | '-' :: r2 =>
    let u := r2.takeWhile isWsChar
    let r3 := r2.dropWhile isWsChar
    if u.contains '\n' then
      let w2 := r3.takeWhile isWordChar
      let r4 := r3.dropWhile isWordChar
      if w2.isEmpty then none else some (w1 ++ w2, r4)
    else none
  | _ => none

/-- Scanning loop of the substitution: try the match at every position,
emit the replacement and resume after the match on success, otherwise
copy one character. -/
def repairHyphens : List Char → List Char
  | [] => []
  | c :: cs =>
    match h : hyphenMatch (c :: cs) with
    | some (emit, rest) => emit ++ repairHyphens rest
    | none => c :: repairHyphens cs
termination_by cs => cs.length
decreasing_by
  · have key : ∀ (l e r : List Char), hyphenMatch l = some (e, r) → r.length < l.length := by
      intro l e r hm
      unfold hyphenMatch at hm
      dsimp only at hm
      split at hm
      next => exact absurd hm (by simp)
      next =>
        split at hm
        next r2 heq =>
          split at hm
          next =>
            split at hm
            next => exact absurd hm (by simp)
            next =>
              have hr : r = (r2.dropWhile isWsChar).dropWhile isWordChar := by
                simp only [Option.some.injEq, Prod.mk.injEq] at hm
                exact hm.2.symm
              have h1 : ('-' :: r2).length ≤ l.length := by
                rw [← heq]; exact (List.dropWhile_sublist _).length_le
              have h2 : (r2.dropWhile isWsChar).length ≤ r2.length :=
                (List.dropWhile_sublist _).length_le
              have h3 : ((r2.dropWhile isWsChar).dropWhile isWordChar).length ≤
                  (r2.dropWhile isWsChar).length :=
                (List.dropWhile_sublist _).length_le
              rw [hr]
              simp only [List.length_cons] at h1
              omega
          next => exact absurd hm (by simp)
        next => exact absurd hm (by simp)
    simpa using key _ _ _ h
  · simp

/-! ### Step 2: `re.sub(r'(?<![.\?!])\n(?!\n)', ' ', text)` -/

/-- One position of the newline-collapsing substitution: `prev` is the
original character immediately before the current one (`none` at the
start of the string). -/
def collapseNlAux (prev : Option Char) : List Char → List Char
  | [] => []
  | c :: cs =>
    if c = '\n' && !(prev = some '.' || prev = some '?' || prev = some '!')
        && !(cs.head? = some '\n') then
      ' ' :: collapseNlAux (some c) cs
    else
      c :: collapseNlAux (some c) cs

/-- `re.sub(r'(?<![.\?!])\n(?!\n)', ' ', text)`: replace every newline not
preceded by `.`/`?`/`!` and not followed by a newline with a space. -/
def collapseNewlines (cs : List Char) : List Char :=
  collapseNlAux none cs

/-! ### Step 3: `re.sub(r'^\s*[\dIVXLCDMivxlcdm]+\s*$', '', text, flags=re.MULTILINE)`

With `re.MULTILINE`, `^` matches at position 0 and right after every
newline, and `$` matches at the end and right before every newline.  The
greedy leading `\s*` can cross newlines; the greedy trailing `\s*` ends at
the end of the string if the whitespace run reaches it, and otherwise at
the last newline inside that run (later positions fail `$`, and
backtracking the page-number run never helps since its characters are
neither newlines nor string end). -/

/-- Split a list at its last `'\n'`: `some (u1, u2)` with the original
list `= u1 ++ u2`, `u2` beginning with that last newline. -/
def lastNlSplit : List Char → Option (List Char × List Char)
  | [] => none
  | c :: cs =>
    match lastNlSplit cs with
    | some (u1, u2) => some (c :: u1, u2)
    | none => if c = '\n' then some ([], c :: cs) else none

/-- Attempt the page-number-line match at the head of `cs` (a `^`
position).  On success returns `(lineStart, rest)`: the input after the
match and whether the character just before `rest` was a newline (i.e.
whether `rest` begins at a fresh `^` position). -/
def pageNumMatch (cs : List Char) : Option (Bool × List Char) :=
  let r1 := cs.dropWhile isWsChar
  let t := r1.takeWhile isPageNumChar
  let r2 := r1.dropWhile isPageNumChar
  if t.isEmpty then none else
  let u := r2.takeWhile isWsChar
  let r3 := r2.dropWhile isWsChar
  if r3.isEmpty then some (true, []) else
  match lastNlSplit u with
  | some (u1, u2) => some (u1.getLast? = some '\n', u2 ++ r3)
  | none => none

/-- Scanning loop of the substitution.  `lineStart` records whether the
current position is a `^` position (start of input or just after a
newline): there, a successful match is deleted and scanning resumes after
it; everywhere else one character is copied. -/
def stripPageAux : Bool → List Char → List Char
  | _, [] => []
  | lineStart, c :: cs =>
    if lineStart then
      match h : pageNumMatch (c :: cs) with
      | some (ls2, rest) => stripPageAux ls2 rest
      | none => c :: stripPageAux (c = '\n') cs
    else
      c :: stripPageAux (c = '\n') cs
termination_by _ cs => cs.length
decreasing_by
  · have hsplit : ∀ (u u1 u2 : List Char), lastNlSplit u = some (u1, u2) →
        u.length = u1.length + u2.length := by
      intro u
      induction u with
      | nil => intro u1 u2 hs; simp [lastNlSplit] at hs
      | cons d ds ih =>
        intro u1 u2 hs
        simp only [lastNlSplit] at hs
        split at hs
        next v1 v2 hv =>
          simp only [Option.some.injEq, Prod.mk.injEq] at hs
          obtain ⟨h1, h2⟩ := hs
          subst h1; subst h2
          simpa [Nat.add_right_comm] using ih v1 v2 hv
        next =>
          split at hs
          · simp only [Option.some.injEq, Prod.mk.injEq] at hs
            obtain ⟨h1, h2⟩ := hs
            subst h1; subst h2
            simp
          · exact absurd hs (by simp)
    have key : ∀ (l : List Char) (b : Bool) (r : List Char),
        pageNumMatch l = some (b, r) → r.length < l.length := by
      intro l b r hm
      unfold pageNumMatch at hm
      dsimp only at hm
      split at hm
      next => exact absurd hm (by simp)
      next ht =>
        split at hm
        next =>
          simp only [Option.some.injEq, Prod.mk.injEq] at hm
          obtain ⟨-, h2⟩ := hm
          subst h2
          have h0 : ¬(l.dropWhile isWsChar).takeWhile isPageNumChar = [] := by
            simpa [List.isEmpty_iff] using ht
          have h1 : 0 < (l.dropWhile isWsChar).length := by
            cases hdw : l.dropWhile isWsChar with
            | nil => rw [hdw] at h0; simp at h0
            | cons x xs => simp
          have h2 : (l.dropWhile isWsChar).length ≤ l.length :=
            (List.dropWhile_sublist _).length_le
          simp only [List.length_nil]
          omega
        next =>
          split at hm
          next u1 u2 hu =>
            simp only [Option.some.injEq, Prod.mk.injEq] at hm
            obtain ⟨-, h2⟩ := hm
            subst h2
            have hlen := hsplit _ _ _ hu
            -- abbreviations
            have hd1 : (l.dropWhile isWsChar).length ≤ l.length :=
              (List.dropWhile_sublist _).length_le
            have htd : ((l.dropWhile isWsChar).takeWhile isPageNumChar).length
                + ((l.dropWhile isWsChar).dropWhile isPageNumChar).length
                = (l.dropWhile isWsChar).length := by
              rw [← List.length_append, List.takeWhile_append_dropWhile]
            have hud : (((l.dropWhile isWsChar).dropWhile isPageNumChar).takeWhile isWsChar).length
                + (((l.dropWhile isWsChar).dropWhile isPageNumChar).dropWhile isWsChar).length
                = ((l.dropWhile isWsChar).dropWhile isPageNumChar).length := by
              rw [← List.length_append, List.takeWhile_append_dropWhile]
            have h0 : ¬(l.dropWhile isWsChar).takeWhile isPageNumChar = [] := by
              simpa [List.isEmpty_iff] using ht
            have h0' : 0 < ((l.dropWhile isWsChar).takeWhile isPageNumChar).length := by
              cases hc : (l.dropWhile isWsChar).takeWhile isPageNumChar with
              | nil => exact absurd hc h0
              | cons x xs => simp
            simp only [List.length_append] at hlen ⊢
            omega
          next => exact absurd hm (by simp)
    simpa using key _ _ _ h
  · simp
  · simp

/-- `re.sub(r'^\s*[\dIVXLCDMivxlcdm]+\s*$', '', text, flags=re.MULTILINE)`. -/
def stripPageNumberLines (cs : List Char) : List Char :=
  stripPageAux true cs

/-! ### Step 4: `re.sub(r'\s+', ' ', text).strip()` -/

/-- `re.sub(r'\s+', ' ', text)`: every maximal whitespace run becomes a
single space. -/
def collapseWs : List Char → List Char
  | [] => []
  | c :: cs =>
    if isWsChar c then ' ' :: collapseWs (cs.dropWhile isWsChar)
    else c :: collapseWs cs
termination_by cs => cs.length
decreasing_by
  · have : (cs.dropWhile isWsChar).length ≤ cs.length :=
      (List.dropWhile_sublist _).length_le
    simp only [List.length_cons]
    omega
  · simp

/-- Drop trailing whitespace. -/
def trimRight (cs : List Char) : List Char :=
  (cs.reverse.dropWhile isWsChar).reverse

/-- Python `str.strip()`: drop whitespace from both ends. -/
def pyStrip (cs : List Char) : List Char :=
  trimRight (cs.dropWhile isWsChar)

/-- Step 4 of the cleaner: collapse whitespace runs, then strip. -/
def normalizeWs (cs : List Char) : List Char :=
  pyStrip (collapseWs cs)

/-! ### Step 5 and the full cleaner -/

/-- Python `str.replace(a, b)` for single characters. -/
def pyReplace (a b : Char) (cs : List Char) : List Char :=
  cs.map (fun c => if c = a then b else c)

/-- `clean_ocr_text` from `text_cleaning_service.py`, at character-list
level.  In that file the three final `replace` calls have lost their
typographic-quote arguments: they read `replace('"', '"')`,
`replace('"', '"')` and `replace("'", "'")` — each replaces a plain ASCII
character by itself — so they are reproduced as such. -/
def cleanChars (cs : List Char) : List Char :=
  let t1 := repairHyphens cs
  let t2 := collapseNewlines t1
  let t3 := stripPageNumberLines t2
  let t4 := normalizeWs t3
  pyReplace '\x27' '\x27' (pyReplace '"' '"' (pyReplace '"' '"' t4))

/-- `clean_ocr_text` on strings. -/
def clean_ocr_text (ocr_text : String) : String :=
  String.mk (cleanChars ocr_text.data)

/-! ### Analysis helpers for the cleaner (used in the idempotence proof) -/

/-- Non-whitespace characters. -/
def isNonWs (c : Char) : Bool := !(isWsChar c)

/-- The maximal non-whitespace runs (words) of a character list, in
order. -/
def tokens : List Char → List (List Char)
  | [] => []
  | c :: cs =>
    if isWsChar c then tokens cs
    else (c :: cs.takeWhile isNonWs) :: tokens (cs.dropWhile isNonWs)
termination_by cs => cs.length
decreasing_by
  · simp
  · have : (cs.dropWhile isNonWs).length ≤ cs.length :=
      (List.dropWhile_sublist _).length_le
    simp only [List.length_cons]
    omega

/-- The lines of a character list (maximal newline-free segments; the
list is never empty). -/
def linesOf : List Char → List (List Char)
  | [] => [[]]
  | c :: cs =>
    if c = '\n' then [] :: linesOf cs
    else (c :: (linesOf cs).headD []) :: (linesOf cs).tail

/-- Whether a (newline-free) line consists of optional whitespace, a
nonempty run of page-number characters, and optional whitespace — i.e.
whether it is a page-number artifact line matched by step 3's regex. -/
def tokenFormB (l : List Char) : Bool :=
  let l1 := l.dropWhile isWsChar
  let t := l1.takeWhile isPageNumChar
  let l2 := l1.dropWhile isPageNumChar
  !t.isEmpty && l2.all isWsChar

/-! ### Hierarchical chunking (`chunking_service.py`) -/

/-- A langchain `Document` as built by `chunk_text_hierarchical`: its
`page_content` and the single metadata entry `"parent_id"`.  Note there is
no document-reference field: the metadata dict carries only `parent_id`. -/
structure LCDocument where
  page_content : String
  parent_id : Nat
deriving Repr, DecidableEq

/-- Modelled from the spec: the recursive character splitter
(`RecursiveCharacterTextSplitter.split_text`) is external library code,
not part of this repository's source.  Following §4.2, the text is split
into segments of at most `chunk_size` characters, consecutive segments
overlapping: each new segment starts `step + 1` characters after the
previous one.  Each produced segment is a contiguous substring of the
input. -/
def splitChunksAux (chunk_size step : Nat) : Nat → List Char → List (List Char)
  | 0, _ => []
  | _ + 1, [] => []
  | fuel + 1, c :: cs =>
    (c :: cs).take chunk_size ::
      (if cs.length + 1 ≤ chunk_size then []
       else splitChunksAux chunk_size step fuel ((c :: cs).drop (step + 1)))

/-- Modelled from the spec: `split_text` of a splitter configured with
`chunk_size`/`chunk_overlap` (spec §4.2: segments of at most `chunk_size`
characters with `chunk_overlap` characters carried over; parameters
satisfy `chunk_overlap < chunk_size`).  The fuel argument
(`text.length`) strictly exceeds the number of windows, since each
recursive step drops at least one character of a nonempty list. -/
def split_text (chunk_size chunk_overlap : Nat) (text : String) : List String :=
  (splitChunksAux chunk_size (chunk_size - chunk_overlap - 1) text.data.length text.data).map String.mk

/-- The loop `for idx, parent_chunk in enumerate(parent_chunks)` building
child `Document`s with `metadata={"parent_id": idx}`. -/
def childDocsAux (child_splitter : String → List String) (idx : Nat) :
    List String → List LCDocument
  | [] => []
  | p :: ps =>
    (child_splitter p).map (fun child_text => ⟨child_text, idx⟩)
      ++ childDocsAux child_splitter (idx + 1) ps

/-- The comprehension `[Document(page_content=chunk, metadata={"parent_id": idx})
for idx, chunk in enumerate(parent_chunks)]`. -/
def parentDocsAux (idx : Nat) : List String → List LCDocument
  | [] => []
  | p :: ps => ⟨p, idx⟩ :: parentDocsAux (idx + 1) ps

/-- `chunk_text_hierarchical` from `chunking_service.py`: split the text
into parent chunks, split each parent into child chunks tagged with the
parent's enumeration index, and return `(parent_documents,
child_documents)`. -/
def chunk_text_hierarchical (document_text : String)
    (parent_splitter child_splitter : String → List String) :
    List LCDocument × List LCDocument :=
  let parent_chunks := parent_splitter document_text
  (parentDocsAux 0 parent_chunks, childDocsAux child_splitter 0 parent_chunks)

/-! ### Parent-chunk persistence (`mongodb_service.py`) -/

/-- `save_parent_chunks`: `insert_many` of the chunk records into
`parent_doc_chunk_collection`.  A record holds exactly the fields of the
chunk dict: `"text"` and `"parent_id"` (see the docstring of
`save_parent_chunks`); there is no document-reference field. -/
def save_parent_chunks (store : List LCDocument) (chunks : List LCDocument) :
    List LCDocument :=
  store ++ chunks

/-- `get_parent_chunks_by_ids`: `find({"parent_id": {"$in": parent_ids}})` —
every stored record whose `parent_id` is in the id list, in store
(insertion) order, each stored record at most once. -/
def get_parent_chunks_by_ids (parent_ids : List Nat) (store : List LCDocument) :
    List LCDocument :=
  store.filter (fun r => parent_ids.contains r.parent_id)

/-! ### Query services (`query_service.py`) -/

/-- The reformulation prompt built by `format_query_for_search`. -/
def reformulation_prompt (user_query : String) : String :=
  "Correct only spelling and grammatical mistakes in the following user query for vector search. Return ONLY the fixed query, without changing the query\x27s meaning, intent, or adding any extra details. Do NOT include explanations, instructions, or additional tokens—simply output the corrected user query ONLY.\nUser query: " ++ user_query

/-- `format_query_for_search`: the generation call's outcome is passed in
(`Except.ok` with the model text, or `Except.error` when
`generate_llm_response` raised).  On success the stripped text is
returned; on failure the original query is returned unchanged. -/
def format_query_for_search (llm_result : Except String String)
    (user_query : String) : String :=
  match llm_result with
  | .ok formatted_query => formatted_query.trim
  | .error _ => user_query

/-- `build_rag_prompt` from `query_service.py` (the f-string template,
with its literal indentation). -/
def build_rag_prompt (user_query context : String) : String :=
  "You are an assistant that answers the user\x27s question strictly using the provided context.\n\n                User Query:\n                "
    ++ user_query
    ++ "\n\n                Context:\n                "
    ++ context
    ++ "\n\n                Rules:\n                1. Use only information found in the context.\n                2. Do not add, assume, or infer anything that is not explicitly in the context.\n                3. The final answer must be written clearly for the end user.\n                4. Do not include any explanations about rules, context, or reasoning in the final answer.\n                5. If the answer is not present in the context, reply exactly with:\n                \"The answer is not found in the provided documents.\"\n\n                Final Answer:\n            "

/-! ### The query route (`routers/query_route.py`) -/

/-- One result of `search_child_chunks`: the Pinecone match metadata
(`parent_id` may be absent — `metadata.get("parent_id")` is `None`). -/
structure ChildMatch where
  parent_id : Option Nat
  child_text : String
deriving Repr, DecidableEq

/-- Response model of the query endpoint. -/
structure QueryResponse where
  answer : String
  query : String
  context_used : Bool
deriving Repr, DecidableEq

/-- A call made to the generation service (`generate_llm_response`),
with its prompt. -/
inductive GenCall where
  | reformulate (prompt : String)
  | answer (prompt : String)
deriving Repr, DecidableEq

/-- Outcomes of the external collaborators during one query:
the reformulation generation call, the vector search (as a function of
the formatted query and `top_k`), the parent-chunk store contents, and
the answer-generation call. -/
structure QueryEnv where
  reformulate_result : Except String String
  search_for : String → Nat → List ChildMatch
  store : List LCDocument
  answer_of : String → String

/-- `query_documents` from `query_route.py`, returning the response
together with the trace of generation-service calls made.
`format_query_for_search` always performs its generation call (whether or
not it succeeds), so the reformulation call is always traced. -/
def query_documents (env : QueryEnv) (query : String) (top_k : Nat) :
    QueryResponse × List GenCall :=
  let formatted_query := format_query_for_search env.reformulate_result query
  let refCalls := [GenCall.reformulate (reformulation_prompt query)]
  let child_chunks := env.search_for formatted_query top_k
  if child_chunks.isEmpty then
    (⟨"No relevant information found in the documents.", query, false⟩, refCalls)
  else
    let parent_ids := child_chunks.filterMap (fun c => c.parent_id)
    if parent_ids.isEmpty then
      (⟨"Unable to retrieve context from documents.", query, false⟩, refCalls)
    else
      let parent_chunks := get_parent_chunks_by_ids parent_ids env.store
      let context := String.join (parent_chunks.map (fun c => c.page_content))
      if context = "" then
        (⟨"No context available to answer the query.", query, false⟩, refCalls)
      else
        let rag_prompt := build_rag_prompt query context
        let answer := env.answer_of rag_prompt
        (⟨answer, query, true⟩, refCalls ++ [GenCall.answer rag_prompt])

/-- Distinct elements in order of first appearance (`seen` accumulates
the elements already emitted). -/
def dedupFirstAux (seen : List Nat) : List Nat → List Nat
  | [] => []
  | x :: xs =>
    if seen.contains x then dedupFirstAux seen xs
    else x :: dedupFirstAux (x :: seen) xs

/-- Distinct elements in order of first appearance. -/
def dedupFirst (l : List Nat) : List Nat :=
  dedupFirstAux [] l

/-- The context ordering asserted by the spec (claim C3): the resolved
parent texts concatenated by order of first appearance of the distinct
`parent_id`s in the ranked match list. -/
def spec_context (parent_ids : List Nat) (store : List LCDocument) : String :=
  String.join ((dedupFirst parent_ids).map (fun pid =>
    ((store.find? (fun r => r.parent_id == pid)).map (fun r => r.page_content)).getD ""))

/-! ### Document metadata (`document_metadata_service.py`) -/

/-- The metadata record persisted per document (the JSON dict written by
`_save_metadata`). -/
structure DocMetadata where
  doc_id : String
  filename : String
  filepath : String
  status : String
  created_at : Nat
  updated_at : Nat
  processed_text : Option String
  cleaned_text : Option String
  summary : Option String
deriving Repr, DecidableEq

/-- `update_document_status`: `loaded` is the result of `_load_metadata`
(`none` when no record exists, in which case a fresh entry is created
with filename `"unknown"` and empty filepath); then status and
`updated_at` are set, the supplied text fields merged, and the record
persisted (returned). -/
def update_document_status (loaded : Option DocMetadata) (doc_id status : String)
    (processed_text cleaned_text : Option String) (now : Nat) : DocMetadata :=
  let metadata :=
    match loaded with
    | some m => m
    | none => ⟨doc_id, "unknown", "", status, now, now, none, none, none⟩
  let metadata := { metadata with status := status, updated_at := now }
  let metadata :=
    match processed_text with
    | some t => { metadata with processed_text := some t }
    | none => metadata
  let metadata :=
    match cleaned_text with
    | some t => { metadata with cleaned_text := some t }
    | none => metadata
  metadata

/-- Python truthiness of an optional string (`None` and `""` are falsy). -/
def pyTruthy : Option String → Bool
  | none => false
  | some s => !(s == "")

/-- `get_document_text`: `metadata.get("cleaned_text") or
metadata.get("processed_text")` — Python `or` falls through on falsy
(missing or empty) values. -/
def get_document_text (m : DocMetadata) : Option String :=
  if pyTruthy m.cleaned_text then m.cleaned_text else m.processed_text

/-! ### The summarize route (`routers/summarize_route.py`) -/

/-- Outcome of `summarize_uploaded_document`: the `SummarizeResponse`
fields on success, or an `HTTPException` status/detail. -/
inductive SummarizeOutcome where
  | ok (summary : String) (original_length summary_length : Nat)
  | http_error (status_code : Nat) (detail : String)
deriving Repr, DecidableEq

/-- External outcomes for one summarize request: the stored metadata for
the document id, and the generation service's summary for a given text. -/
structure SummarizeEnv where
  metadata : Option DocMetadata
  gen_summary : String → String

/-- `summarize_uploaded_document`, returning the outcome and whether the
generation service (`summarize_with_gemini`) was invoked. -/
def summarize_uploaded_document (env : SummarizeEnv) (doc_id : String) :
    SummarizeOutcome × Bool :=
  match env.metadata with
  | none =>
    (.http_error 404 ("Document with ID " ++ doc_id ++ " not found. Please upload the document first."), false)
  | some metadata =>
    if metadata.status ≠ "completed" then
      (.http_error 400 ("Document is still processing. Current status: " ++ metadata.status), false)
    else
      let text := get_document_text metadata
      if ¬ pyTruthy text then
        (.http_error 400 "Document text not available. Document may not be fully processed.", false)
      else
        let text_val := text.getD ""
        if pyTruthy metadata.summary then
          (.ok (metadata.summary.getD "") text_val.length (metadata.summary.getD "").length, false)
        else
          let summary := env.gen_summary text_val
          (.ok summary text_val.length summary.length, true)

/-! ### The processing orchestrators (`document_processor.py` and
`document_processor_service.py`) -/

/-- A raised Python exception: its message and, for `raise X from e`, the
message of the chained original cause. -/
structure PyErr where
  msg : String
  cause : Option String
deriving Repr, DecidableEq

/-- Outcomes of the fallible calls made by one document-processing run,
in pipeline order.  (Cleaning and chunking are pure local computation.) -/
structure ProcEnv where
  extract_text : Except PyErr String
  update_status_processing : Except PyErr Unit
  correct_text : String → Except PyErr String
  create_index : Except PyErr Unit
  get_embedding_model : Except PyErr Unit
  get_vector_store : Except PyErr Unit
  add_documents : Except PyErr Unit
  save_parent_chunks_op : Except PyErr Unit
  update_status_completed : Except PyErr Unit
  update_status_failed : Except PyErr Unit

/-- Observable events of a processing run: stages that executed and
status writes attempted (with whether the write succeeded). -/
inductive ProcEvent where
  | stage (name : String)
  | status_write (status : String) (ok : Bool)
deriving Repr, DecidableEq

/-- The `except` branch of `document_processor.process_document` (sync
variant): try to write status `failed`, swallow any error from that
write (`except: pass`), and raise
`RuntimeError("Error occur during processing the document..") from e`. -/
def syncFailPath (env : ProcEnv) (e : PyErr) (evts : List ProcEvent) :
    Except PyErr Unit × List ProcEvent :=
  let wrapped : PyErr := ⟨"Error occur during processing the document..", some e.msg⟩
  match env.update_status_failed with
  | .ok _ => (.error wrapped, evts ++ [.status_write "failed" true])
  | .error _ => (.error wrapped, evts ++ [.status_write "failed" false])

/-- `process_document` from `document_processor.py` (sync variant):
extract → clean → persist texts → correct → chunk → index setup → add
child chunks → save parent chunks → status `completed`; on any failure,
skip the rest and take `syncFailPath`. -/
def process_document_sync (env : ProcEnv) : Except PyErr Unit × List ProcEvent :=
  match env.extract_text with
  | .error e => syncFailPath env e [.stage "extract_text_with_ocr"]
  | .ok extracted_text =>
    let cleaned_text := clean_ocr_text extracted_text
    let evts0 := [ProcEvent.stage "extract_text_with_ocr", ProcEvent.stage "clean_ocr_text"]
    match env.update_status_processing with
    | .error e => syncFailPath env e (evts0 ++ [.status_write "processing" false])
    | .ok _ =>
      let evts1 := evts0 ++ [ProcEvent.status_write "processing" true]
      match env.correct_text cleaned_text with
      | .error e => syncFailPath env e (evts1 ++ [.stage "correct_ocr_text"])
      | .ok corrected_text =>
        let chunked := chunk_text_hierarchical corrected_text
          (split_text 1500 200) (split_text 500 100)
        let evts2 := evts1 ++ [ProcEvent.stage "correct_ocr_text",
          ProcEvent.stage "chunk_text_hierarchically"]
        match env.create_index with
        | .error e => syncFailPath env e (evts2 ++ [.stage "create_index_if_not_exists"])
        | .ok _ =>
          let evts3 := evts2 ++ [ProcEvent.stage "create_index_if_not_exists"]
          match env.get_embedding_model with
          | .error e => syncFailPath env e (evts3 ++ [.stage "get_embedding_model"])
          | .ok _ =>
            let evts4 := evts3 ++ [ProcEvent.stage "get_embedding_model"]
            match env.get_vector_store with
            | .error e => syncFailPath env e (evts4 ++ [.stage "get_vector_store"])
            | .ok _ =>
              let evts5 := evts4 ++ [ProcEvent.stage "get_vector_store"]
              match env.add_documents with
              | .error e => syncFailPath env e (evts5 ++ [.stage "add_documents_to_vector_store"])
              | .ok _ =>
                let evts6 := evts5 ++ [ProcEvent.stage "add_documents_to_vector_store"]
                match env.save_parent_chunks_op with
                | .error e => syncFailPath env e (evts6 ++ [.stage "save_parent_chunks"])
                | .ok _ =>
                  let evts7 := evts6 ++ [ProcEvent.stage "save_parent_chunks"]
                  match env.update_status_completed with
                  | .error e => syncFailPath env e (evts7 ++ [.status_write "completed" false])
                  | .ok _ =>
                    let _ := chunked
                    (.ok (), evts7 ++ [ProcEvent.status_write "completed" true])

/-- The `except` branch of `document_processor_service.process_document`
(async variant): `await update_document_status(doc_id, "failed")` is NOT
guarded — if that write raises, the write's error propagates; only when
it succeeds does the bare `raise` re-raise the original stage error. -/
def asyncFailPath (env : ProcEnv) (e : PyErr) (evts : List ProcEvent) :
    Except PyErr Unit × List ProcEvent :=
  match env.update_status_failed with
  | .ok _ => (.error e, evts ++ [.status_write "failed" true])
  | .error w => (.error w, evts ++ [.status_write "failed" false])

/-- `process_document` from `document_processor_service.py` (async
variant): the same stage sequence (the `asyncio.gather` of the vector
upsert and the parent-chunk save is modelled by their two outcomes in
order), with the unguarded failure path `asyncFailPath`. -/
def process_document_async (env : ProcEnv) : Except PyErr Unit × List ProcEvent :=
  match env.extract_text with
  | .error e => asyncFailPath env e [.stage "extract_text_with_ocr"]
  | .ok extracted_text =>
    let cleaned_text := clean_ocr_text extracted_text
    let evts0 := [ProcEvent.stage "extract_text_with_ocr", ProcEvent.stage "clean_ocr_text"]
    match env.update_status_processing with
    | .error e => asyncFailPath env e (evts0 ++ [.status_write "processing" false])
    | .ok _ =>
      let evts1 := evts0 ++ [ProcEvent.status_write "processing" true]
      match env.correct_text cleaned_text with
      | .error e => asyncFailPath env e (evts1 ++ [.stage "correct_ocr_text"])
      | .ok corrected_text =>
        let chunked := chunk_text_hierarchical corrected_text
          (split_text 1500 200) (split_text 500 100)
        let evts2 := evts1 ++ [ProcEvent.stage "correct_ocr_text",
          ProcEvent.stage "chunk_text_hierarchically"]
        match env.create_index with
        | .error e => asyncFailPath env e (evts2 ++ [.stage "create_index_if_not_exists"])
        | .ok _ =>
          let evts3 := evts2 ++ [ProcEvent.stage "create_index_if_not_exists"]
          match env.get_embedding_model with
          | .error e => asyncFailPath env e (evts3 ++ [.stage "get_embedding_model"])
          | .ok _ =>
            let evts4 := evts3 ++ [ProcEvent.stage "get_embedding_model"]
            match env.get_vector_store with
            | .error e => asyncFailPath env e (evts4 ++ [.stage "get_vector_store"])
            | .ok _ =>
              let evts5 := evts4 ++ [ProcEvent.stage "get_vector_store"]
              match env.add_documents with
              | .error e => asyncFailPath env e (evts5 ++ [.stage "add_documents_to_vector_store"])
              | .ok _ =>
                let evts6 := evts5 ++ [ProcEvent.stage "add_documents_to_vector_store"]
                match env.save_parent_chunks_op with
                | .error e => asyncFailPath env e (evts6 ++ [.stage "save_parent_chunks"])
                | .ok _ =>
                  let evts7 := evts6 ++ [ProcEvent.stage "save_parent_chunks"]
                  match env.update_status_completed with
                  | .error e => asyncFailPath env e (evts7 ++ [.status_write "completed" false])
                  | .ok _ =>
                    let _ := chunked
                    (.ok (), evts7 ++ [ProcEvent.status_write "completed" true])

/-- The first failing stage of a run, in pipeline order (`none` when the
whole pipeline succeeds). -/
def first_stage_error (env : ProcEnv) : Option PyErr :=
  match env.extract_text with
  | .error e => some e
  | .ok extracted_text =>
    match env.update_status_processing with
    | .error e => some e
    | .ok _ =>
      match env.correct_text (clean_ocr_text extracted_text) with
      | .error e => some e
      | .ok _ =>
        match env.create_index with
        | .error e => some e
        | .ok _ =>
          match env.get_embedding_model with
          | .error e => some e
          | .ok _ =>
            match env.get_vector_store with
            | .error e => some e
            | .ok _ =>
              match env.add_documents with
              | .error e => some e
              | .ok _ =>
                match env.save_parent_chunks_op with
                | .error e => some e
                | .ok _ =>
                  match env.update_status_completed with
                  | .error e => some e
                  | .ok _ => none

/-! ## Theorems -/

/-- C8: for every user query, if the query-reformulation generation call
fails, `format_query_for_search` returns the original query string
unchanged (the function is total — no error propagates), so reformulation
failure never aborts query processing. -/
theorem C8_reformulation_failure_falls_back (e user_query : String) :
    format_query_for_search (Except.error e) user_query = user_query := rfl

/-- C9: for every existing document record, `update_document_status`
changes only the status, the `updated_at` timestamp and the supplied
(non-`None`) text fields; `doc_id`, `filename`, `filepath`, `created_at`,
`summary` and every unsupplied text field keep their previous values, and
`updated_at` is refreshed on every update. -/
theorem C9_update_existing_is_partial_merge (m : DocMetadata)
    (doc_id status : String) (processed_text cleaned_text : Option String) (now : Nat) :
    (update_document_status (some m) doc_id status processed_text cleaned_text now).doc_id = m.doc_id
    ∧ (update_document_status (some m) doc_id status processed_text cleaned_text now).filename = m.filename
    ∧ (update_document_status (some m) doc_id status processed_text cleaned_text now).filepath = m.filepath
    ∧ (update_document_status (some m) doc_id status processed_text cleaned_text now).created_at = m.created_at
    ∧ (update_document_status (some m) doc_id status processed_text cleaned_text now).summary = m.summary
    ∧ (update_document_status (some m) doc_id status processed_text cleaned_text now).status = status
    ∧ (update_document_status (some m) doc_id status processed_text cleaned_text now).updated_at = now
    ∧ (processed_text = none →
        (update_document_status (some m) doc_id status processed_text cleaned_text now).processed_text = m.processed_text)
    ∧ (∀ t, processed_text = some t →
        (update_document_status (some m) doc_id status processed_text cleaned_text now).processed_text = some t)
    ∧ (cleaned_text = none →
        (update_document_status (some m) doc_id status processed_text cleaned_text now).cleaned_text = m.cleaned_text)
    ∧ (∀ t, cleaned_text = some t →
        (update_document_status (some m) doc_id status processed_text cleaned_text now).cleaned_text = some t) := by
  cases processed_text <;> cases cleaned_text <;>
    simp [update_document_status]

/-- Witness for C9 at a concrete record and update. -/
theorem C9_witness :
    (update_document_status
        (some ⟨"d1", "f.pdf", "/tmp/f.pdf", "processing", 3, 4, some "raw", none, some "S"⟩)
        "d1" "completed" none (some "clean") 9).filename = "f.pdf"
    ∧ (update_document_status
        (some ⟨"d1", "f.pdf", "/tmp/f.pdf", "processing", 3, 4, some "raw", none, some "S"⟩)
        "d1" "completed" none (some "clean") 9).processed_text = some "raw"
    ∧ (update_document_status
        (some ⟨"d1", "f.pdf", "/tmp/f.pdf", "processing", 3, 4, some "raw", none, some "S"⟩)
        "d1" "completed" none (some "clean") 9).cleaned_text = some "clean" := by
  refine ⟨?_, ?_, ?_⟩
  · exact (C9_update_existing_is_partial_merge
      ⟨"d1", "f.pdf", "/tmp/f.pdf", "processing", 3, 4, some "raw", none, some "S"⟩
      "d1" "completed" none (some "clean") 9).2.1
  · exact (C9_update_existing_is_partial_merge
      ⟨"d1", "f.pdf", "/tmp/f.pdf", "processing", 3, 4, some "raw", none, some "S"⟩
      "d1" "completed" none (some "clean") 9).2.2.2.2.2.2.2.1 rfl
  · exact (C9_update_existing_is_partial_merge
      ⟨"d1", "f.pdf", "/tmp/f.pdf", "processing", 3, 4, some "raw", none, some "S"⟩
      "d1" "completed" none (some "clean") 9).2.2.2.2.2.2.2.2.2.2 "clean" rfl

/-- C10 counterexample: the claim says the freshly created record is
persisted with null text fields; but a call that supplies
`processed_text` persists that supplied value on the fresh record. -/
theorem C10_counterexample :
    (update_document_status none "d1" "processing" (some "raw") none 5).processed_text
      = some "raw"
    ∧ (some "raw" : Option String) ≠ none := by
  exact ⟨rfl, by simp⟩

/-- C10 (amended): for a `doc_id` with no stored record,
`update_document_status` does not fail: it creates and persists a fresh
record with filename `"unknown"`, empty filepath, the given status, null
summary, and text fields equal to exactly the supplied values (null when
not supplied). -/
theorem C10_missing_doc_creates_record (doc_id status : String)
    (processed_text cleaned_text : Option String) (now : Nat) :
    update_document_status none doc_id status processed_text cleaned_text now
      = ⟨doc_id, "unknown", "", status, now, now, processed_text, cleaned_text, none⟩ := by
  cases processed_text <;> cases cleaned_text <;> rfl

/-- C7 counterexample: a completed document whose metadata contains a
summary but no retrievable text gets a 400 error instead of the cached
summary; and a completed document with an empty cached summary triggers
a fresh generation call. -/
theorem C7_counterexample :
    (summarize_uploaded_document
        ⟨some ⟨"d1", "f.pdf", "/p", "completed", 1, 2, none, none, some "S"⟩,
         fun _ => "GEN"⟩ "d1")
      = (.http_error 400 "Document text not available. Document may not be fully processed.", false)
    ∧ (summarize_uploaded_document
        ⟨some ⟨"d2", "f.pdf", "/p", "completed", 1, 2, some "T", none, some ""⟩,
         fun _ => "GEN"⟩ "d2").2 = true := by
  exact ⟨rfl, rfl⟩

/-- C7 (amended): for every completed document whose metadata contains a
non-empty summary and whose stored text resolves to a non-empty value,
the summarize request returns the stored summary byte-for-byte and the
generation service is not invoked. -/
theorem C7_cached_summary_returned (env : SummarizeEnv) (doc_id : String)
    (m : DocMetadata) (s : String)
    (hm : env.metadata = some m)
    (hstatus : m.status = "completed")
    (hsummary : m.summary = some s)
    (hs : s ≠ "")
    (htext : pyTruthy (get_document_text m) = true) :
    summarize_uploaded_document env doc_id
      = (.ok s ((get_document_text m).getD "").length s.length, false) := by
  have hts : pyTruthy m.summary = true := by
    rw [hsummary]
    simpa [pyTruthy] using hs
  unfold summarize_uploaded_document
  rw [hm]
  dsimp only
  rw [hstatus, htext, hts, hsummary]
  simp

/-- Witness for C7 at a concrete completed, already-summarized document. -/
theorem C7_witness :
    summarize_uploaded_document
        ⟨some ⟨"d1", "f.pdf", "/p", "completed", 1, 2, some "raw text", some "clean text", some "S"⟩,
         fun _ => "GEN"⟩ "d1"
      = (.ok "S" ("clean text" : String).length ("S" : String).length, false) := by
  exact C7_cached_summary_returned
    ⟨some ⟨"d1", "f.pdf", "/p", "completed", 1, 2, some "raw text", some "clean text", some "S"⟩,
     fun _ => "GEN"⟩ "d1"
    ⟨"d1", "f.pdf", "/p", "completed", 1, 2, some "raw text", some "clean text", some "S"⟩
    "S" rfl rfl rfl (by simp) rfl

/-- C2: the persisted parent-chunk records carry no document reference —
after ingesting two documents that each produce a parent chunk with
`parent_id = 0`, the lookup for id `0` returns both documents' records,
so a parent chunk cannot be identified by a `(document, parent_id)` key. -/
theorem C2_cross_document_collision :
    get_parent_chunks_by_ids [0]
        (save_parent_chunks
          (save_parent_chunks []
            (chunk_text_hierarchical "alpha document text."
              (split_text 1500 200) (split_text 500 100)).1)
          (chunk_text_hierarchical "beta document text."
            (split_text 1500 200) (split_text 500 100)).1)
      = [⟨"alpha document text.", 0⟩, ⟨"beta document text.", 0⟩] := by
  rfl

/-- C3 counterexample: with stored parent chunks `[("B", 1), ("A", 0)]`
and ranked matches for ids `0` then `1`, the code concatenates in store
order (`"BA"`), not in order of first appearance in the match list
(`"AB"`). -/
theorem C3_counterexample :
    (query_documents
        ⟨Except.ok "q", fun _ _ => [⟨some 0, "c0"⟩, ⟨some 1, "c1"⟩],
         [⟨"B", 1⟩, ⟨"A", 0⟩], fun _ => "ANSWER"⟩ "q" 3).2
      = [GenCall.reformulate (reformulation_prompt "q"),
         GenCall.answer (build_rag_prompt "q" "BA")]
    ∧ spec_context [0, 1] [⟨"B", 1⟩, ⟨"A", 0⟩] = "AB"
    ∧ ("BA" : String) ≠ "AB" := by
  exact ⟨rfl, rfl, by decide⟩

/-- C3 (amended): whenever an answer-generation call is made, its prompt
carries as context the concatenation of the texts of the stored
parent-chunk records whose `parent_id` occurs among the matched ids, in
metadata-store order — each stored record at most once (the fetched list
is a sublist of the store) — not in rank order of the matches. -/
theorem C3_context_is_store_order (env : QueryEnv) (query : String) (top_k : Nat) :
    (∀ prompt, GenCall.answer prompt ∈ (query_documents env query top_k).2 →
      prompt = build_rag_prompt query (String.join
        ((get_parent_chunks_by_ids
            ((env.search_for (format_query_for_search env.reformulate_result query) top_k).filterMap
              (fun c => c.parent_id)) env.store).map (fun c => c.page_content))))
    ∧ List.Sublist (get_parent_chunks_by_ids
        ((env.search_for (format_query_for_search env.reformulate_result query) top_k).filterMap
          (fun c => c.parent_id)) env.store) env.store := by
  constructor
  · intro prompt hmem
    unfold query_documents at hmem
    dsimp only at hmem
    split at hmem
    · simp at hmem
    · split at hmem
      · simp at hmem
      · split at hmem
        · simp at hmem
        · simp at hmem
          exact hmem
  · exact List.filter_sublist _

/-- Witness for C3 at the concrete environment of the counterexample. -/
theorem C3_witness :
    GenCall.answer (build_rag_prompt "q" "BA")
      ∈ (query_documents
          ⟨Except.ok "q", fun _ _ => [⟨some 0, "c0"⟩, ⟨some 1, "c1"⟩],
           [⟨"B", 1⟩, ⟨"A", 0⟩], fun _ => "ANSWER"⟩ "q" 3).2
    ∧ build_rag_prompt "q" "BA" = build_rag_prompt "q" (String.join
        ((get_parent_chunks_by_ids [0, 1] [⟨"B", 1⟩, ⟨"A", 0⟩]).map
          (fun c => c.page_content))) := by
  refine ⟨List.Mem.tail _ (List.Mem.head _), ?_⟩
  exact (C3_context_is_store_order
    ⟨Except.ok "q", fun _ _ => [⟨some 0, "c0"⟩, ⟨some 1, "c1"⟩],
     [⟨"B", 1⟩, ⟨"A", 0⟩], fun _ => "ANSWER"⟩ "q" 3).1
    (build_rag_prompt "q" "BA") (List.Mem.tail _ (List.Mem.head _))

/-- C6 counterexample: on a zero-match query the endpoint does return the
fixed answer with `context_used = false`, but the generation service has
already been invoked once for query reformulation, so the trace of
generation calls is not empty. -/
theorem C6_counterexample :
    (query_documents ⟨Except.ok "fixed", fun _ _ => [], [], fun _ => "ANS"⟩ "q" 3).1
      = ⟨"No relevant information found in the documents.", "q", false⟩
    ∧ (query_documents ⟨Except.ok "fixed", fun _ _ => [], [], fun _ => "ANS"⟩ "q" 3).2
      = [GenCall.reformulate (reformulation_prompt "q")]
    ∧ ([GenCall.reformulate (reformulation_prompt "q")] : List GenCall) ≠ [] := by
  exact ⟨rfl, rfl, by simp⟩

/-- C6 (amended): a zero-match query returns the fixed "no relevant
information" response with `context_used = false` and never invokes the
answer-generation call; the only generation call made is the
reformulation one. -/
theorem C6_no_match_short_circuit (env : QueryEnv) (query : String) (top_k : Nat)
    (h : env.search_for (format_query_for_search env.reformulate_result query) top_k = []) :
    (query_documents env query top_k).1
      = ⟨"No relevant information found in the documents.", query, false⟩
    ∧ (query_documents env query top_k).2
      = [GenCall.reformulate (reformulation_prompt query)]
    ∧ ∀ prompt, GenCall.answer prompt ∉ (query_documents env query top_k).2 := by
  unfold query_documents
  dsimp only
  rw [h]
  simp

/-- Witness for C6 at a concrete zero-match environment. -/
theorem C6_witness :
    (query_documents ⟨Except.ok "ok", fun _ _ => [], [⟨"A", 0⟩], fun _ => "ANS"⟩ "q" 5).1
      = ⟨"No relevant information found in the documents.", "q", false⟩ := by
  exact (C6_no_match_short_circuit
    ⟨Except.ok "ok", fun _ _ => [], [⟨"A", 0⟩], fun _ => "ANS"⟩ "q" 5 rfl).1

/-- C4 counterexample: in the async orchestrator
(`document_processor_service.py`), when the extraction stage fails with
`E1` and the failed-status write itself fails with `E2`, the propagated
error is the status-write error `E2`, not the original stage error. -/
theorem C4_counterexample :
    (process_document_async
        ⟨Except.error ⟨"E1", none⟩, Except.ok (), fun _ => Except.ok "", Except.ok (),
         Except.ok (), Except.ok (), Except.ok (), Except.ok (), Except.ok (),
         Except.error ⟨"E2", none⟩⟩).1
      = Except.error ⟨"E2", none⟩
    ∧ first_stage_error
        ⟨Except.error ⟨"E1", none⟩, Except.ok (), fun _ => Except.ok "", Except.ok (),
         Except.ok (), Except.ok (), Except.ok (), Except.ok (), Except.ok (),
         Except.error ⟨"E2", none⟩⟩
      = some ⟨"E1", none⟩
    ∧ (⟨"E2", none⟩ : PyErr) ≠ ⟨"E1", none⟩ := by
  exact ⟨rfl, rfl, by decide⟩

/-- C4 (amended): on any stage failure both orchestrators skip the
remaining stages and attempt the `failed` status write, and the
`completed` write never succeeds; in the sync orchestrator
(`document_processor.py`) a failure of the `failed` write is swallowed
and a `RuntimeError` chaining the original stage error propagates, while
in the async orchestrator (`document_processor_service.py`) a failing
`failed` write propagates the write error instead of the original one. -/
theorem C4_failure_semantics (env : ProcEnv) :
    (process_document_sync env).1 =
      (match first_stage_error env with
       | none => Except.ok ()
       | some e => Except.error ⟨"Error occur during processing the document..", some e.msg⟩)
    ∧ (process_document_async env).1 =
      (match first_stage_error env with
       | none => Except.ok ()
       | some e =>
         match env.update_status_failed with
         | .ok _ => Except.error e
         | .error w => Except.error w)
    ∧ (first_stage_error env ≠ none →
        (ProcEvent.status_write "completed" true ∉ (process_document_sync env).2
         ∧ (ProcEvent.status_write "failed" true ∈ (process_document_sync env).2
            ∨ ProcEvent.status_write "failed" false ∈ (process_document_sync env).2)
         ∧ ProcEvent.status_write "completed" true ∉ (process_document_async env).2
         ∧ (ProcEvent.status_write "failed" true ∈ (process_document_async env).2
            ∨ ProcEvent.status_write "failed" false ∈ (process_document_async env).2))) := by
  obtain ⟨ext, usp, corr, ci, gm, gvs, ad, sp, uc, uf⟩ := env
  rcases ext with e | t
  · rcases uf with w | u <;>
      simp [process_document_sync, process_document_async, first_stage_error,
        syncFailPath, asyncFailPath]
  · rcases usp with e | u1
    · rcases uf with w | u <;>
        simp [process_document_sync, process_document_async, first_stage_error,
          syncFailPath, asyncFailPath]
    · rcases hc : corr (clean_ocr_text t) with e | ct <;>
        rcases ci with e2 | u2 <;> rcases gm with e3 | u3 <;> rcases gvs with e4 | u4 <;>
        rcases ad with e5 | u5 <;> rcases sp with e6 | u6 <;> rcases uc with e7 | u7 <;>
        rcases uf with w | u <;>
        simp [process_document_sync, process_document_async, first_stage_error,
          syncFailPath, asyncFailPath, hc]

/-- Witness for C4 at a concrete failing run. -/
theorem C4_witness :
    ProcEvent.status_write "failed" true ∈
        (process_document_sync
          ⟨Except.error ⟨"E1", none⟩, Except.ok (), fun _ => Except.ok "", Except.ok (),
           Except.ok (), Except.ok (), Except.ok (), Except.ok (), Except.ok (),
           Except.ok ()⟩).2
      ∨ ProcEvent.status_write "failed" false ∈
        (process_document_sync
          ⟨Except.error ⟨"E1", none⟩, Except.ok (), fun _ => Except.ok "", Except.ok (),
           Except.ok (), Except.ok (), Except.ok (), Except.ok (), Except.ok (),
           Except.ok ()⟩).2 := by
  exact ((C4_failure_semantics
    ⟨Except.error ⟨"E1", none⟩, Except.ok (), fun _ => Except.ok "", Except.ok (),
     Except.ok (), Except.ok (), Except.ok (), Except.ok (), Except.ok (),
     Except.ok ()⟩).2.2 (fun h => Option.noConfusion h)).2.1

/-! ### Chunker lemmas (for C1) -/

/-- Every piece produced by the splitter is a contiguous substring of its
input. -/
theorem splitChunksAux_infix (chunk_size step : Nat) :
    ∀ (fuel : Nat) (cs piece : List Char),
      piece ∈ splitChunksAux chunk_size step fuel cs →
      ∃ p q, cs = p ++ piece ++ q := by
  intro fuel
  induction fuel with
  | zero => intro cs piece h; simp [splitChunksAux] at h
  | succ n ih =>
    intro cs piece h
    cases cs with
    | nil => simp [splitChunksAux] at h
    | cons c cs' =>
      simp only [splitChunksAux, List.mem_cons] at h
      rcases h with h | h
      · exact ⟨[], (c :: cs').drop chunk_size, by
          simp [h, List.take_append_drop]⟩
      · split at h
        · simp at h
        · obtain ⟨p, q, hpq⟩ := ih _ _ h
          refine ⟨(c :: cs').take (step + 1) ++ p, q, ?_⟩
          conv_lhs => rw [← List.take_append_drop (step + 1) (c :: cs')]
          rw [hpq]
          simp

/-- Every string produced by `split_text` is a contiguous substring of
the input text. -/
theorem split_text_substring (chunk_size chunk_overlap : Nat) (text s : String)
    (h : s ∈ split_text chunk_size chunk_overlap text) :
    ∃ p q, text.data = p ++ s.data ++ q := by
  unfold split_text at h
  rw [List.mem_map] at h
  obtain ⟨piece, hmem, hs⟩ := h
  obtain ⟨p, q, hpq⟩ := splitChunksAux_infix chunk_size _ _ _ _ hmem
  exact ⟨p, q, by rw [hpq, ← hs]⟩

/-- `parentDocsAux` preserves the number of chunks. -/
theorem parentDocsAux_length : ∀ (i : Nat) (ps : List String),
    (parentDocsAux i ps).length = ps.length := by
  intro i ps
  induction ps generalizing i with
  | nil => rfl
  | cons p ps ih => simp [parentDocsAux, ih]

/-- The `j`-th parent document is the `j`-th chunk tagged with id `i + j`. -/
theorem parentDocsAux_get : ∀ (i : Nat) (ps : List String) (j : Nat)
    (hj : j < ps.length),
    (parentDocsAux i ps).get ⟨j, by rw [parentDocsAux_length]; exact hj⟩
      = ⟨ps.get ⟨j, hj⟩, i + j⟩ := by
  intro i ps
  induction ps generalizing i with
  | nil => intro j hj; simp at hj
  | cons p ps ih =>
    intro j hj
    cases j with
    | zero => simp [parentDocsAux]
    | succ j' =>
      have hj' : j' < ps.length := by simpa using hj
      simpa [parentDocsAux, Nat.add_assoc, Nat.add_comm 1 j'] using ih (i + 1) j' hj'

/-- Membership in the child-document list: every child comes from
splitting the `k`-th parent chunk and carries `parent_id = i + k`. -/
theorem childDocsAux_mem (f : String → List String) :
    ∀ (i : Nat) (ps : List String) (c : LCDocument),
      c ∈ childDocsAux f i ps →
      ∃ (k : Nat) (hk : k < ps.length),
        c.parent_id = i + k ∧ c.page_content ∈ f (ps.get ⟨k, hk⟩) := by
  intro i ps
  induction ps generalizing i with
  | nil => intro c h; simp [childDocsAux] at h
  | cons p ps ih =>
    intro c h
    simp only [childDocsAux, List.mem_append, List.mem_map] at h
    rcases h with ⟨t, ht, hc⟩ | h
    · exact ⟨0, by simp, by simp [← hc], by simpa [← hc] using ht⟩
    · obtain ⟨k, hk, hid, hmem⟩ := ih (i + 1) c h
      exact ⟨k + 1, by simpa using hk, by omega, by simpa using hmem⟩

/-- C1: for every input text and chunking parameters with
`childSize < parentSize`, every child chunk's `parent_id` equals the
0-based position of exactly one parent chunk in the result, and the
child's text is a contiguous substring of that parent's text (here with
no edge loss at all, which implies the claim's up-to-`childOverlap`
tolerance). -/
theorem C1_child_parent_invariant (document_text : String)
    (parentSize parentOverlap childSize childOverlap : Nat)
    (hsz : childSize < parentSize) :
    ∀ c ∈ (chunk_text_hierarchical document_text (split_text parentSize parentOverlap)
        (split_text childSize childOverlap)).2,
      ∃! j : Fin (chunk_text_hierarchical document_text (split_text parentSize parentOverlap)
          (split_text childSize childOverlap)).1.length,
        ((chunk_text_hierarchical document_text (split_text parentSize parentOverlap)
            (split_text childSize childOverlap)).1.get j).parent_id = c.parent_id
        ∧ (j : Nat) = c.parent_id
        ∧ ∃ p q, ((chunk_text_hierarchical document_text (split_text parentSize parentOverlap)
            (split_text childSize childOverlap)).1.get j).page_content.data
            = p ++ c.page_content.data ++ q := by
  intro c hc
  simp only [chunk_text_hierarchical] at hc ⊢
  obtain ⟨k, hk, hid, hmem⟩ := childDocsAux_mem _ 0 _ c hc
  rw [Nat.zero_add] at hid
  have hklt : k < (parentDocsAux 0 (split_text parentSize parentOverlap document_text)).length := by
    rw [parentDocsAux_length]; exact hk
  refine ⟨⟨k, by simpa [hid] using hklt⟩, ⟨?_, ?_, ?_⟩, ?_⟩
  · rw [show (⟨k, by simpa [hid] using hklt⟩ :
        Fin (parentDocsAux 0 (split_text parentSize parentOverlap document_text)).length)
        = ⟨k, hklt⟩ from rfl]
    rw [parentDocsAux_get 0 _ k hk]
    simpa using hid.symm
  · simpa using hid.symm
  · rw [show (⟨k, by simpa [hid] using hklt⟩ :
        Fin (parentDocsAux 0 (split_text parentSize parentOverlap document_text)).length)
        = ⟨k, hklt⟩ from rfl]
    rw [parentDocsAux_get 0 _ k hk]
    exact split_text_substring childSize childOverlap _ _ hmem
  · intro j' hj'
    apply Fin.ext
    simp only [hj'.2.1, hid]

/-- Witness for C1 at a concrete text and parameter set. -/
theorem C1_witness :
    (3 < 7)
    ∧ ∀ c ∈ (chunk_text_hierarchical "hello chunking world"
        (split_text 7 2) (split_text 3 1)).2,
      ∃! j : Fin (chunk_text_hierarchical "hello chunking world"
          (split_text 7 2) (split_text 3 1)).1.length,
        ((chunk_text_hierarchical "hello chunking world"
            (split_text 7 2) (split_text 3 1)).1.get j).parent_id = c.parent_id
        ∧ (j : Nat) = c.parent_id
        ∧ ∃ p q, ((chunk_text_hierarchical "hello chunking world"
            (split_text 7 2) (split_text 3 1)).1.get j).page_content.data
            = p ++ c.page_content.data ++ q :=
  ⟨by decide, C1_child_parent_invariant "hello chunking world" 7 2 3 1 (by decide)⟩

/-! ### Cleaner lemmas (towards C5) -/

theorem ws_of_isWsChar {c : Char} (h : isWsChar c = true) :
    c = ' ' ∨ c = '\t' ∨ c = '\n' ∨ c = '\r' ∨ c = '\x0b' ∨ c = '\x0c' := by
  simp [isWsChar] at h
  tauto

theorem pageNum_not_ws {c : Char} (h : isPageNumChar c = true) : isWsChar c = false := by
  by_contra hw
  rw [Bool.not_eq_false] at hw
  rcases ws_of_isWsChar hw with rfl | rfl | rfl | rfl | rfl | rfl <;>
    exact absurd h (by decide)

theorem pageNum_nonws {c : Char} (h : isPageNumChar c = true) : isNonWs c = true := by
  simp [isNonWs, pageNum_not_ws h]

theorem isNonWs_iff {c : Char} : isNonWs c = true ↔ isWsChar c = false := by
  simp [isNonWs]

theorem nonws_ne_nl {c : Char} (h : isNonWs c = true) : c ≠ '\n' := by
  rintro rfl
  simp [isNonWs, isWsChar] at h

theorem takeWhile_append_all {p : Char → Bool} {a : List Char} (b : List Char)
    (h : ∀ c ∈ a, p c = true) : (a ++ b).takeWhile p = a ++ b.takeWhile p := by
  induction a with
  | nil => simp
  | cons x xs ih =>
    have hx : p x = true := h x (by simp)
    simp only [List.cons_append, List.takeWhile_cons, hx, if_true]
    rw [ih (fun c hc => h c (by simp [hc]))]

theorem dropWhile_append_all {p : Char → Bool} {a : List Char} (b : List Char)
    (h : ∀ c ∈ a, p c = true) : (a ++ b).dropWhile p = b.dropWhile p := by
  induction a with
  | nil => simp
  | cons x xs ih =>
    have hx : p x = true := h x (by simp)
    simp only [List.cons_append, List.dropWhile_cons, hx, if_true]
    exact ih (fun c hc => h c (by simp [hc]))

theorem takeWhile_cons_neg {p : Char → Bool} {x : Char} (xs : List Char)
    (h : p x = false) : (x :: xs).takeWhile p = [] := by
  simp [List.takeWhile_cons, h]

theorem dropWhile_cons_neg {p : Char → Bool} {x : Char} (xs : List Char)
    (h : p x = false) : (x :: xs).dropWhile p = x :: xs := by
  simp [List.dropWhile_cons, h]

theorem dropWhile_cons_head {p : Char → Bool} :
    ∀ (l : List Char) {x xs}, l.dropWhile p = x :: xs → p x = false := by
  intro l
  induction l with
  | nil => intro x xs h; simp at h
  | cons c cs ih =>
    intro x xs h
    rw [List.dropWhile_cons] at h
    split at h
    · exact ih h
    · next hc =>
      obtain ⟨rfl, -⟩ := List.cons.inj h
      exact Bool.not_eq_true _ ▸ hc

theorem dropWhile_append_of_ne_nil {p : Char → Bool} :
    ∀ {x : List Char} (y : List Char), x.dropWhile p ≠ [] →
      (x ++ y).dropWhile p = x.dropWhile p ++ y := by
  intro x
  induction x with
  | nil => intro y h; simp at h
  | cons c cs ih =>
    intro y h
    rw [List.dropWhile_cons] at h ⊢
    by_cases hc : p c = true
    · rw [if_pos hc] at h
      simp only [List.cons_append, List.dropWhile_cons, hc, if_true]
      exact ih y h
    · rw [Bool.not_eq_true] at hc
      simp [List.dropWhile_cons, hc]

/-! tokens -/

theorem tokens_nil : tokens [] = [] := by
  simp [tokens]

theorem tokens_cons_ws {c : Char} (cs : List Char) (h : isWsChar c = true) :
    tokens (c :: cs) = tokens cs := by
  rw [tokens, if_pos h]

theorem tokens_cons_nonws {c : Char} (cs : List Char) (h : isWsChar c = false) :
    tokens (c :: cs)
      = (c :: cs.takeWhile isNonWs) :: tokens (cs.dropWhile isNonWs) := by
  rw [tokens]
  simp [h]

theorem tokens_nil_of_all_ws : ∀ (cs : List Char),
    (∀ c ∈ cs, isWsChar c = true) → tokens cs = [] := by
  intro cs
  induction cs with
  | nil => intro _; exact tokens_nil
  | cons c cs ih =>
    intro h
    rw [tokens_cons_ws _ (h c (by simp))]
    exact ih (fun x hx => h x (by simp [hx]))

theorem tokens_dropWhile_ws : ∀ (cs : List Char),
    tokens (cs.dropWhile isWsChar) = tokens cs := by
  intro cs
  induction cs with
  | nil => rfl
  | cons c cs ih =>
    by_cases h : isWsChar c = true
    · rw [List.dropWhile_cons, if_pos h, ih, tokens_cons_ws _ h]
    · rw [Bool.not_eq_true] at h
      rw [dropWhile_cons_neg _ h]

theorem tokens_head_run (t u : List Char) (ht : t ≠ [])
    (hall : ∀ c ∈ t, isNonWs c = true)
    (hu : u = [] ∨ ∃ d z, u = d :: z ∧ isWsChar d = true) :
    tokens (t ++ u) = t :: tokens u := by
  cases t with
  | nil => exact absurd rfl ht
  | cons c t' =>
    have hc : isWsChar c = false := isNonWs_iff.mp (hall c (by simp))
    rw [List.cons_append, tokens_cons_nonws _ hc]
    have htake : (t' ++ u).takeWhile isNonWs = t' ++ u.takeWhile isNonWs :=
      takeWhile_append_all u (fun x hx => hall x (by simp [hx]))
    have hdrop : (t' ++ u).dropWhile isNonWs = u.dropWhile isNonWs :=
      dropWhile_append_all u (fun x hx => hall x (by simp [hx]))
    have hu_take : u.takeWhile isNonWs = [] := by
      rcases hu with rfl | ⟨d, z, rfl, hd⟩
      · rfl
      · exact takeWhile_cons_neg _ (by simp [isNonWs, hd])
    have hu_drop : u.dropWhile isNonWs = u := by
      rcases hu with rfl | ⟨d, z, rfl, hd⟩
      · rfl
      · exact dropWhile_cons_neg _ (by simp [isNonWs, hd])
    rw [htake, hdrop, hu_take, hu_drop, List.append_nil]

theorem tokens_all : ∀ (n : Nat) (cs : List Char), cs.length ≤ n →
    ∀ t ∈ tokens cs, t ≠ [] ∧ ∀ c ∈ t, isNonWs c = true := by
  intro n
  induction n with
  | zero =>
    intro cs h t htm
    have : cs = [] := List.length_eq_zero.mp (Nat.le_zero.mp h)
    subst this
    simp [tokens] at htm
  | succ n ih =>
    intro cs hlen t htm
    cases cs with
    | nil => simp [tokens] at htm
    | cons c cs' =>
      by_cases hws : isWsChar c = true
      · rw [tokens_cons_ws _ hws] at htm
        exact ih cs' (by simpa using Nat.le_of_succ_le_succ hlen) t htm
      · rw [Bool.not_eq_true] at hws
        rw [tokens_cons_nonws _ hws] at htm
        rcases List.mem_cons.mp htm with rfl | htm
        · refine ⟨by simp, ?_⟩
          intro x hx
          rcases List.mem_cons.mp hx with rfl | hx
          · exact isNonWs_iff.mpr hws
          · exact List.mem_takeWhile_imp hx
        · have hd : (cs'.dropWhile isNonWs).length ≤ n := by
            have h1 : (cs'.dropWhile isNonWs).length ≤ cs'.length :=
              (List.dropWhile_sublist _).length_le
            have h2 : cs'.length ≤ n := by simpa using Nat.le_of_succ_le_succ hlen
            omega
          exact ih _ hd t htm

/-! intercalate -/

theorem intercalate_cons_ne_nil (s x : List Char) (ys : List (List Char)) (h : ys ≠ []) :
    List.intercalate s (x :: ys) = x ++ s ++ List.intercalate s ys := by
  cases ys with
  | nil => exact absurd rfl h
  | cons y ys' => simp [List.intercalate]

theorem mem_intercalate_space : ∀ (ts : List (List Char)) (c : Char),
    c ∈ List.intercalate [' '] ts → c = ' ' ∨ ∃ t ∈ ts, c ∈ t := by
  intro ts
  induction ts with
  | nil => intro c h; simp [List.intercalate] at h
  | cons t ts' ih =>
    intro c h
    cases ts' with
    | nil =>
      right
      exact ⟨t, by simp, by simpa [List.intercalate] using h⟩
    | cons t2 ts2 =>
      rw [intercalate_cons_ne_nil _ _ _ (by simp)] at h
      simp only [List.append_assoc, List.mem_append] at h
      rcases h with h | h | h
      · exact Or.inr ⟨t, by simp, h⟩
      · exact Or.inl (by simpa using h)
      · rcases ih c h with h | ⟨u, hu, hc⟩
        · exact Or.inl h
        · exact Or.inr ⟨u, by simp [hu], hc⟩

theorem tokens_intercalate : ∀ (ts : List (List Char)),
    (∀ t ∈ ts, t ≠ [] ∧ ∀ c ∈ t, isNonWs c = true) →
    tokens (List.intercalate [' '] ts) = ts := by
  intro ts
  induction ts with
  | nil => simp [List.intercalate, tokens]
  | cons t ts' ih =>
    intro h
    obtain ⟨ht, hall⟩ := h t (by simp)
    cases ts' with
    | nil =>
      have h2 : List.intercalate [' '] [t] = t ++ [] := by simp [List.intercalate]
      rw [h2, tokens_head_run t [] ht hall (Or.inl rfl), tokens_nil]
    | cons t2 ts2 =>
      rw [intercalate_cons_ne_nil _ _ _ (by simp), List.append_assoc,
        List.singleton_append]
      rw [tokens_head_run t _ ht hall
        (Or.inr ⟨' ', _, rfl, by decide⟩)]
      rw [tokens_cons_ws _ (by decide)]
      rw [ih (fun u hu => h u (by simp [hu]))]

/-! collapse and trim -/

theorem collapseWs_nil : collapseWs [] = [] := by
  simp [collapseWs]

theorem collapseWs_cons_ws {c : Char} (cs : List Char) (h : isWsChar c = true) :
    collapseWs (c :: cs) = ' ' :: collapseWs (cs.dropWhile isWsChar) := by
  rw [collapseWs, if_pos h]

theorem collapseWs_cons_nonws {c : Char} (cs : List Char) (h : isWsChar c = false) :
    collapseWs (c :: cs) = c :: collapseWs cs := by
  rw [collapseWs, if_neg (by simp [h])]

theorem collapseWs_nonws_run : ∀ (t : List Char) (r : List Char),
    (∀ c ∈ t, isNonWs c = true) → collapseWs (t ++ r) = t ++ collapseWs r := by
  intro t
  induction t with
  | nil => intro r _; rfl
  | cons c t' ih =>
    intro r h
    have hc : isWsChar c = false := isNonWs_iff.mp (h c (by simp))
    rw [List.cons_append, collapseWs_cons_nonws _ hc,
      ih r (fun x hx => h x (by simp [hx])), List.cons_append]

theorem trimRight_append_all_ws (a b : List Char)
    (h : ∀ c ∈ b, isWsChar c = true) : trimRight (a ++ b) = trimRight a := by
  unfold trimRight
  rw [List.reverse_append, dropWhile_append_all _ (fun c hc => h c (by
    simpa using hc))]

theorem trimRight_all_nonws (a : List Char)
    (h : ∀ c ∈ a, isNonWs c = true) : trimRight a = a := by
  unfold trimRight
  have h2 : a.reverse.dropWhile isWsChar = a.reverse := by
    cases hr : a.reverse with
    | nil => rfl
    | cons c y =>
      have hc : c ∈ a := by
        have : c ∈ a.reverse := by rw [hr]; simp
        simpa using this
      exact dropWhile_cons_neg _ (isNonWs_iff.mp (h c hc))
  rw [h2, List.reverse_reverse]

theorem trimRight_append_of_ne_nil (a b : List Char) (h : trimRight b ≠ []) :
    trimRight (a ++ b) = a ++ trimRight b := by
  unfold trimRight at h ⊢
  have hb : b.reverse.dropWhile isWsChar ≠ [] := by
    intro hnil
    rw [hnil] at h
    simp at h
  rw [List.reverse_append, dropWhile_append_of_ne_nil _ hb,
    List.reverse_append, List.reverse_reverse]

theorem trimRight_ne_nil_head_nonws (d : Char) (y : List Char)
    (h : isNonWs d = true) : trimRight (d :: y) ≠ [] := by
  unfold trimRight
  have : (d :: y).reverse = y.reverse ++ [d] := by simp
  rw [this]
  by_cases hy : y.reverse.dropWhile isWsChar = []
  · have hall : ∀ c ∈ y.reverse, isWsChar c = true :=
      List.dropWhile_eq_nil_iff.mp hy
    rw [dropWhile_append_all _ hall, dropWhile_cons_neg _ (isNonWs_iff.mp h)]
    simp
  · rw [dropWhile_append_of_ne_nil _ hy]
    simp

/-- Step 4 computes the whitespace-normal form: the tokens joined by
single spaces. -/
theorem normalizeWs_eq_intercalate_aux : ∀ (n : Nat) (cs : List Char),
    cs.length ≤ n → normalizeWs cs = List.intercalate [' '] (tokens cs) := by
  intro n
  induction n with
  | zero =>
    intro cs h
    have : cs = [] := List.length_eq_zero.mp (Nat.le_zero.mp h)
    subst this
    simp [normalizeWs, pyStrip, collapseWs_nil, trimRight, tokens_nil,
      List.intercalate]
  | succ n ih =>
    intro cs hlen
    cases cs with
    | nil =>
      simp [normalizeWs, pyStrip, collapseWs_nil, trimRight, tokens_nil,
        List.intercalate]
    | cons c cs' =>
      have hcs' : cs'.length ≤ n := by
        simpa using Nat.le_of_succ_le_succ hlen
      by_cases hws : isWsChar c = true
      · -- whitespace head: both sides reduce to the tail with its leading
        -- whitespace dropped
        have hX : (cs'.dropWhile isWsChar).length ≤ n := by
          have := (List.dropWhile_sublist (l := cs') isWsChar).length_le
          omega
        have h1 : normalizeWs (c :: cs') = normalizeWs (cs'.dropWhile isWsChar) := by
          unfold normalizeWs pyStrip
          rw [collapseWs_cons_ws _ hws]
          rw [List.dropWhile_cons, if_pos (by decide : isWsChar ' ' = true)]
        rw [h1, tokens_cons_ws _ hws, ← tokens_dropWhile_ws cs']
        exact ih _ hX
      · -- non-whitespace head: peel off the first token
        rw [Bool.not_eq_true] at hws
        have hnw : isNonWs c = true := isNonWs_iff.mpr hws
        have hsplit : c :: cs' = (c :: cs'.takeWhile isNonWs) ++ cs'.dropWhile isNonWs := by
          simp [List.takeWhile_append_dropWhile]
        have htall : ∀ x ∈ c :: cs'.takeWhile isNonWs, isNonWs x = true := by
          intro x hx
          rcases List.mem_cons.mp hx with rfl | hx
          · exact hnw
          · exact List.mem_takeWhile_imp hx
        have hcol : collapseWs (c :: cs')
            = (c :: cs'.takeWhile isNonWs) ++ collapseWs (cs'.dropWhile isNonWs) := by
          conv_lhs => rw [hsplit]
          exact collapseWs_nonws_run _ _ htall
        have hdropT : ∀ (z : List Char),
            ((c :: cs'.takeWhile isNonWs) ++ z).dropWhile isWsChar
              = (c :: cs'.takeWhile isNonWs) ++ z := by
          intro z
          rw [List.cons_append]
          exact dropWhile_cons_neg _ hws
        rcases hr : cs'.dropWhile isNonWs with _ | ⟨w, r2⟩
        · -- no whitespace after the only token
          have htokens : tokens (c :: cs') = [c :: cs'.takeWhile isNonWs] := by
            conv_lhs => rw [hsplit, hr]
            rw [tokens_head_run _ _ (by simp) htall (Or.inl rfl), tokens_nil]
          have hcol2 : collapseWs (c :: cs') = c :: cs'.takeWhile isNonWs := by
            rw [hcol, hr, collapseWs_nil, List.append_nil]
          unfold normalizeWs pyStrip
          rw [hcol2, dropWhile_cons_neg _ hws, trimRight_all_nonws _ htall,
            htokens]
          simp [List.intercalate]
        · -- whitespace (then possibly more) after the first token
          have hwsw : isWsChar w = true := by
            have := dropWhile_cons_head (p := isNonWs) cs' hr
            simpa [isNonWs] using this
          have htok : tokens (c :: cs')
              = (c :: cs'.takeWhile isNonWs) :: tokens (cs'.dropWhile isNonWs) := by
            conv_lhs => rw [hsplit]
            exact tokens_head_run _ _ (by simp) htall
              (Or.inr ⟨w, r2, hr, hwsw⟩)
          have hcolr : collapseWs (cs'.dropWhile isNonWs)
              = ' ' :: collapseWs (r2.dropWhile isWsChar) := by
            rw [hr, collapseWs_cons_ws _ hwsw]
          have htokr : tokens (cs'.dropWhile isNonWs) = tokens (r2.dropWhile isWsChar) := by
            rw [hr, tokens_cons_ws _ hwsw, tokens_dropWhile_ws]
          have hr3len : (r2.dropWhile isWsChar).length ≤ n := by
            have h1 : (r2.dropWhile isWsChar).length ≤ r2.length :=
              (List.dropWhile_sublist _).length_le
            have h2 : (cs'.dropWhile isNonWs).length ≤ cs'.length :=
              (List.dropWhile_sublist _).length_le
            rw [hr] at h2
            simp only [List.length_cons] at h2
            omega
          rcases hr3 : r2.dropWhile isWsChar with _ | ⟨d, r4⟩
          · -- only trailing whitespace after the token
            unfold normalizeWs pyStrip
            rw [hcol, hcolr, hr3, collapseWs_nil, hdropT,
              trimRight_append_all_ws _ [' '] (by intro x hx; simp at hx; subst hx; decide),
              trimRight_all_nonws _ htall, htok, htokr, hr3, tokens_nil]
            simp [List.intercalate]
          · -- a further token follows
            have hdnw : isWsChar d = false := dropWhile_cons_head r2 hr3
            have hcold : collapseWs (r2.dropWhile isWsChar)
                = d :: collapseWs r4 := by
              rw [hr3, collapseWs_cons_nonws _ hdnw]
            have htrne : trimRight (collapseWs (r2.dropWhile isWsChar)) ≠ [] := by
              rw [hcold]
              exact trimRight_ne_nil_head_nonws d _ (isNonWs_iff.mpr hdnw)
            have hih : normalizeWs (r2.dropWhile isWsChar)
                = List.intercalate [' '] (tokens (r2.dropWhile isWsChar)) :=
              ih _ hr3len
            have hnorm3 : normalizeWs (r2.dropWhile isWsChar)
                = trimRight (collapseWs (r2.dropWhile isWsChar)) := by
              unfold normalizeWs pyStrip
              rw [hcold, dropWhile_cons_neg _ hdnw]
            have htokne : tokens (r2.dropWhile isWsChar) ≠ [] := by
              rw [hr3, tokens_cons_nonws _ hdnw]
              simp
            unfold normalizeWs pyStrip
            rw [hcol, hcolr, hdropT]
            rw [show ((c :: cs'.takeWhile isNonWs)
                ++ ' ' :: collapseWs (r2.dropWhile isWsChar) : List Char)
              = ((c :: cs'.takeWhile isNonWs) ++ [' '])
                ++ collapseWs (r2.dropWhile isWsChar) by simp]
            rw [trimRight_append_of_ne_nil _ _ htrne]
            rw [htok, htokr, intercalate_cons_ne_nil _ _ _ htokne]
            rw [← hnorm3, hih, List.append_assoc, List.singleton_append]

/-- Step 4 equals intercalating the tokens with single spaces. -/
theorem normalizeWs_eq_intercalate (cs : List Char) :
    normalizeWs cs = List.intercalate [' '] (tokens cs) :=
  normalizeWs_eq_intercalate_aux cs.length cs (Nat.le_refl _)

/-! step 5 replaces characters by themselves, hence is the identity -/

theorem pyReplace_self (a : Char) (cs : List Char) : pyReplace a a cs = cs := by
  unfold pyReplace
  induction cs with
  | nil => rfl
  | cons c cs ih =>
    by_cases h : c = a
    · subst h; simp [ih]
    · simp [h, ih]

/-! steps 1 and 2 fix newline-free strings -/

theorem hyphenMatch_none_no_nl (l : List Char) (h : ∀ c ∈ l, c ≠ '\n') :
    hyphenMatch l = none := by
  unfold hyphenMatch
  dsimp only
  split
  · rfl
  · split
    · next r2 heq =>
      have hnl : ¬ '\n' ∈ r2.takeWhile isWsChar := by
        intro hmem
        have h1 : '\n' ∈ r2 := (List.takeWhile_sublist _).subset hmem
        have h2 : '\n' ∈ ('-' :: r2) := by simp [h1]
        rw [← heq] at h2
        have h3 : '\n' ∈ l := (List.dropWhile_sublist _).subset h2
        exact (h '\n' h3) rfl
      rw [if_neg (by simpa [List.elem_iff] using hnl)]
    · rfl

theorem repairHyphens_no_nl : ∀ (cs : List Char), (∀ c ∈ cs, c ≠ '\n') →
    repairHyphens cs = cs := by
  intro cs
  induction cs with
  | nil => intro _; simp [repairHyphens]
  | cons c cs ih =>
    intro h
    have hm := hyphenMatch_none_no_nl (c :: cs) h
    rw [repairHyphens]
    split
    · next emit rest heq =>
      rw [hm] at heq
      cases heq
    · rw [ih (fun x hx => h x (by simp [hx]))]

theorem collapseNlAux_no_nl : ∀ (cs : List Char) (prev : Option Char),
    (∀ c ∈ cs, c ≠ '\n') → collapseNlAux prev cs = cs := by
  intro cs
  induction cs with
  | nil => intro _ _; rfl
  | cons c cs ih =>
    intro prev h
    have hc : c ≠ '\n' := h c (by simp)
    rw [collapseNlAux, if_neg (by simp [hc])]
    rw [ih _ (fun x hx => h x (by simp [hx]))]

theorem collapseNewlines_no_nl (cs : List Char) (h : ∀ c ∈ cs, c ≠ '\n') :
    collapseNewlines cs = cs :=
  collapseNlAux_no_nl cs none h

/-! lines -/

theorem linesOf_ne_nil : ∀ (cs : List Char), linesOf cs ≠ [] := by
  intro cs
  cases cs with
  | nil => simp [linesOf]
  | cons c cs =>
    rw [linesOf]
    split <;> simp

theorem linesOf_cons_nl (cs : List Char) : linesOf ('\n' :: cs) = [] :: linesOf cs := by
  rw [linesOf, if_pos rfl]

theorem linesOf_cons_other {c : Char} (cs : List Char) (h : c ≠ '\n') :
    linesOf (c :: cs) = (c :: (linesOf cs).headD []) :: (linesOf cs).tail := by
  rw [linesOf, if_neg h]

theorem linesOf_append_no_nl : ∀ (a x : List Char), (∀ c ∈ a, c ≠ '\n') →
    linesOf (a ++ x) = (a ++ (linesOf x).headD []) :: (linesOf x).tail := by
  intro a
  induction a with
  | nil =>
    intro x _
    rcases hx : linesOf x with _ | ⟨hd, tl⟩
    · exact absurd hx (linesOf_ne_nil x)
    · simp [hx]
  | cons c a' ih =>
    intro x h
    have hc : c ≠ '\n' := h c (by simp)
    rw [List.cons_append, linesOf_cons_other _ hc,
      ih x (fun y hy => h y (by simp [hy]))]
    simp

theorem linesOf_no_nl (a : List Char) (h : ∀ c ∈ a, c ≠ '\n') :
    linesOf a = [a] := by
  have h2 := linesOf_append_no_nl a [] h
  simpa [linesOf] using h2

/-! tokenFormB -/

theorem tokenFormB_nil : tokenFormB [] = false := by decide

theorem tokenFormB_cons_ws {c : Char} (l : List Char) (h : isWsChar c = true) :
    tokenFormB (c :: l) = tokenFormB l := by
  unfold tokenFormB
  dsimp only
  rw [List.dropWhile_cons, if_pos h]

theorem tokenFormB_true_elim (l : List Char) (h : tokenFormB l = true) :
    ∃ w1 t w2, l = w1 ++ t ++ w2
      ∧ (∀ c ∈ w1, isWsChar c = true) ∧ t ≠ []
      ∧ (∀ c ∈ t, isPageNumChar c = true) ∧ (∀ c ∈ w2, isWsChar c = true) := by
  unfold tokenFormB at h
  dsimp only at h
  rw [Bool.and_eq_true] at h
  obtain ⟨ht, hw2⟩ := h
  refine ⟨l.takeWhile isWsChar,
    (l.dropWhile isWsChar).takeWhile isPageNumChar,
    (l.dropWhile isWsChar).dropWhile isPageNumChar, ?_, ?_, ?_, ?_, ?_⟩
  · conv_lhs => rw [← List.takeWhile_append_dropWhile (p := isWsChar) (l := l),
      ← List.takeWhile_append_dropWhile (p := isPageNumChar) (l := l.dropWhile isWsChar)]
    rw [List.append_assoc]
  · intro c hc; exact List.mem_takeWhile_imp hc
  · simpa [List.isEmpty_iff] using ht
  · intro c hc; exact List.mem_takeWhile_imp hc
  · intro c hc
    have := List.all_eq_true.mp hw2 c hc
    simpa using this

/-! lastNlSplit and pageNumMatch shapes -/

theorem lastNlSplit_eq : ∀ (u u1 u2 : List Char), lastNlSplit u = some (u1, u2) →
    u = u1 ++ u2 ∧ ∃ z, u2 = '\n' :: z := by
  intro u
  induction u with
  | nil => intro u1 u2 h; simp [lastNlSplit] at h
  | cons d ds ih =>
    intro u1 u2 h
    rw [lastNlSplit] at h
    split at h
    · next v1 v2 hv =>
      simp only [Option.some.injEq, Prod.mk.injEq] at h
      obtain ⟨rfl, rfl⟩ := h
      obtain ⟨heq, hz⟩ := ih v1 v2 hv
      exact ⟨by rw [List.cons_append, ← heq], hz⟩
    · split at h
      · next hd =>
        simp only [Option.some.injEq, Prod.mk.injEq] at h
        obtain ⟨rfl, rfl⟩ := h
        exact ⟨rfl, ds, by rw [hd]⟩
      · exact absurd h (by simp)

theorem lastNlSplit_none_imp : ∀ (u : List Char), lastNlSplit u = none →
    ∀ c ∈ u, c ≠ '\n' := by
  intro u
  induction u with
  | nil => intro _ c hc; simp at hc
  | cons d ds ih =>
    intro h c hc
    rw [lastNlSplit] at h
    split at h
    · exact absurd h (by simp)
    · next hnone =>
      split at h
      · exact absurd h (by simp)
      · next hd =>
        rcases List.mem_cons.mp hc with rfl | hc
        · exact hd
        · exact ih hnone c hc

theorem pageNumMatch_some_shape : ∀ (l : List Char) (b : Bool) (r : List Char),
    pageNumMatch l = some (b, r) →
    r.length < l.length ∧ (r = [] ∨ ∃ z, r = '\n' :: z) := by
  intro l b r hm
  unfold pageNumMatch at hm
  dsimp only at hm
  by_cases ht : ((l.dropWhile isWsChar).takeWhile isPageNumChar).isEmpty = true
  · rw [if_pos ht] at hm
    cases hm
  · rw [if_neg ht] at hm
    have h0 : ¬(l.dropWhile isWsChar).takeWhile isPageNumChar = [] := by
      simpa [List.isEmpty_iff] using ht
    have h0' : 0 < ((l.dropWhile isWsChar).takeWhile isPageNumChar).length := by
      cases hc : (l.dropWhile isWsChar).takeWhile isPageNumChar with
      | nil => exact absurd hc h0
      | cons x xs => simp
    have hd1 : (l.dropWhile isWsChar).length ≤ l.length :=
      (List.dropWhile_sublist _).length_le
    have htd : ((l.dropWhile isWsChar).takeWhile isPageNumChar).length
        + ((l.dropWhile isWsChar).dropWhile isPageNumChar).length
        = (l.dropWhile isWsChar).length := by
      rw [← List.length_append, List.takeWhile_append_dropWhile]
    by_cases hr3 : (((l.dropWhile isWsChar).dropWhile isPageNumChar).dropWhile isWsChar).isEmpty = true
    · rw [if_pos hr3] at hm
      obtain ⟨-, rfl⟩ := Prod.mk.inj (Option.some.inj hm)
      refine ⟨?_, Or.inl rfl⟩
      simp only [List.length_nil]
      omega
    · rw [if_neg hr3] at hm
      rcases hls : lastNlSplit (((l.dropWhile isWsChar).dropWhile isPageNumChar).takeWhile isWsChar)
        with _ | ⟨u1, u2⟩
      · rw [hls] at hm
        cases hm
      · rw [hls] at hm
        obtain ⟨-, rfl⟩ := Prod.mk.inj (Option.some.inj hm)
        obtain ⟨hueq, z, hz⟩ := lastNlSplit_eq _ _ _ hls
        constructor
        · have hud : (((l.dropWhile isWsChar).dropWhile isPageNumChar).takeWhile isWsChar).length
              + (((l.dropWhile isWsChar).dropWhile isPageNumChar).dropWhile isWsChar).length
              = ((l.dropWhile isWsChar).dropWhile isPageNumChar).length := by
            rw [← List.length_append, List.takeWhile_append_dropWhile]
          have hu12 : u1.length + u2.length
              = (((l.dropWhile isWsChar).dropWhile isPageNumChar).takeWhile isWsChar).length := by
            rw [hueq, List.length_append]
          simp only [List.length_append]
          omega
        · refine Or.inr ⟨z ++ ((l.dropWhile isWsChar).dropWhile isPageNumChar).dropWhile isWsChar, ?_⟩
          rw [hz, List.cons_append]

/-! stripPageAux equations and splitting -/

theorem stripPageAux_nil (b : Bool) : stripPageAux b [] = [] := by
  cases b <;> simp [stripPageAux]

theorem stripPageAux_true_some {c : Char} {cs : List Char} {b : Bool} {rest : List Char}
    (h : pageNumMatch (c :: cs) = some (b, rest)) :
    stripPageAux true (c :: cs) = stripPageAux b rest := by
  rw [stripPageAux, if_pos rfl]
  split
  · next b' rest' heq =>
    rw [h] at heq
    obtain ⟨rfl, rfl⟩ := Prod.mk.inj (Option.some.inj heq)
    rfl
  · next heq =>
    rw [h] at heq
    cases heq

theorem stripPageAux_true_none {c : Char} {cs : List Char}
    (h : pageNumMatch (c :: cs) = none) :
    stripPageAux true (c :: cs) = c :: stripPageAux (c = '\n') cs := by
  rw [stripPageAux, if_pos rfl]
  split
  · next b' rest' heq =>
    rw [h] at heq
    cases heq
  · rfl

theorem stripPageAux_false_cons (c : Char) (cs : List Char) :
    stripPageAux false (c :: cs) = c :: stripPageAux (c = '\n') cs := by
  rw [stripPageAux]
  simp

theorem stripPageAux_false_no_nl : ∀ (cs : List Char), (∀ c ∈ cs, c ≠ '\n') →
    stripPageAux false cs = cs := by
  intro cs
  induction cs with
  | nil => intro _; exact stripPageAux_nil false
  | cons c cs ih =>
    intro h
    have hd : (decide (c = '\n')) = false := by simp [h c (by simp)]
    rw [stripPageAux_false_cons, hd, ih (fun x hx => h x (by simp [hx]))]

theorem stripPageAux_false_split : ∀ (a z : List Char), (∀ c ∈ a, c ≠ '\n') →
    stripPageAux false (a ++ '\n' :: z) = a ++ '\n' :: stripPageAux true z := by
  intro a
  induction a with
  | nil =>
    intro z _
    rw [List.nil_append, stripPageAux_false_cons, List.nil_append]
    simp
  | cons c a' ih =>
    intro z h
    have hd : (decide (c = '\n')) = false := by simp [h c (by simp)]
    rw [List.cons_append, stripPageAux_false_cons, hd,
      ih z (fun x hx => h x (by simp [hx])), List.cons_append]

/-- If the page-number match fails at a line start, the current line is
not a page-number artifact line. -/
theorem pageNumMatch_fail_line (c : Char) (cs : List Char) (hc : c ≠ '\n')
    (h : pageNumMatch (c :: cs) = none) :
    tokenFormB (c :: cs.takeWhile (fun x => x != '\n')) = false := by
  by_contra htf
  rw [Bool.not_eq_false] at htf
  obtain ⟨w1, t, w2, hdec, hw1, ht, htp, hw2⟩ := tokenFormB_true_elim _ htf
  have hcs : cs = cs.takeWhile (fun x => x != '\n') ++ cs.dropWhile (fun x => x != '\n') :=
    (List.takeWhile_append_dropWhile _ _).symm
  have hdecomp : c :: cs
      = w1 ++ (t ++ (w2 ++ cs.dropWhile (fun x => x != '\n'))) := by
    conv_lhs => rw [hcs]
    rw [show (c :: (cs.takeWhile (fun x => x != '\n') ++ cs.dropWhile (fun x => x != '\n'))
        = (c :: cs.takeWhile (fun x => x != '\n')) ++ cs.dropWhile (fun x => x != '\n'))
      from rfl, hdec]
    simp [List.append_assoc]
  have hR : cs.dropWhile (fun x => x != '\n') = []
      ∨ ∃ z, cs.dropWhile (fun x => x != '\n') = '\n' :: z := by
    rcases hsp : cs.dropWhile (fun x => x != '\n') with _ | ⟨d, z⟩
    · exact Or.inl rfl
    · refine Or.inr ⟨z, ?_⟩
      have := dropWhile_cons_head (p := fun x => x != '\n') cs hsp
      have hd : d = '\n' := by simpa using this
      rw [hd]
  obtain ⟨t0, t', rfl⟩ : ∃ t0 t', t = t0 :: t' := by
    cases t with
    | nil => exact absurd rfl ht
    | cons a b => exact ⟨a, b, rfl⟩
  have ht0 : isWsChar t0 = false := pageNum_not_ws (htp t0 (by simp))
  have hw2page : (w2 ++ cs.dropWhile (fun x => x != '\n')).takeWhile isPageNumChar = []
      ∧ (w2 ++ cs.dropWhile (fun x => x != '\n')).dropWhile isPageNumChar
        = w2 ++ cs.dropWhile (fun x => x != '\n') := by
    cases hw : w2 with
    | cons d w2' =>
      have hd : isPageNumChar d = false := by
        by_contra hdp
        rw [Bool.not_eq_false] at hdp
        have h1 := pageNum_not_ws hdp
        rw [hw2 d (by simp [hw])] at h1
        cases h1
      rw [List.cons_append]
      exact ⟨takeWhile_cons_neg _ hd, dropWhile_cons_neg _ hd⟩
    | nil =>
      rcases hR with hR | ⟨z, hR⟩
      · rw [hR]
        exact ⟨rfl, rfl⟩
      · rw [hR, List.nil_append]
        exact ⟨takeWhile_cons_neg _ (by decide), dropWhile_cons_neg _ (by decide)⟩
  -- reduce the scanner state on the decomposed input
  unfold pageNumMatch at h
  dsimp only at h
  rw [hdecomp] at h
  rw [dropWhile_append_all _ hw1, List.cons_append, dropWhile_cons_neg _ ht0] at h
  have htake2 := takeWhile_append_all (p := isPageNumChar)
    (a := t0 :: t') (w2 ++ cs.dropWhile (fun x => x != '\n')) htp
  have hdrop2 := dropWhile_append_all (p := isPageNumChar)
    (a := t0 :: t') (w2 ++ cs.dropWhile (fun x => x != '\n')) htp
  rw [List.cons_append] at htake2 hdrop2
  rw [htake2, hw2page.1, List.append_nil, hdrop2, hw2page.2] at h
  rw [if_neg (by simp)] at h
  rcases hR with hR | ⟨z, hR⟩
  · -- nothing after the line: the trailing run reaches the end, match succeeds
    have hwnil : w2.dropWhile isWsChar = [] := List.dropWhile_eq_nil_iff.mpr hw2
    rw [hR, List.append_nil] at h
    rw [if_pos (by simp [hwnil])] at h
    cases h
  · -- a newline follows: the trailing whitespace run contains it, so the
    -- match succeeds whether or not the run reaches the end
    rw [hR] at h
    by_cases hre : ((w2 ++ '\n' :: z).dropWhile isWsChar).isEmpty = true
    · rw [if_pos hre] at h
      cases h
    · rw [if_neg hre] at h
      have hu : (w2 ++ '\n' :: z).takeWhile isWsChar
          = w2 ++ '\n' :: z.takeWhile isWsChar := by
        rw [takeWhile_append_all _ hw2, List.takeWhile_cons,
          if_pos (by decide : isWsChar '\n' = true)]
      rcases hls : lastNlSplit ((w2 ++ '\n' :: z).takeWhile isWsChar) with _ | ⟨u1, u2⟩
      · have hnone := lastNlSplit_none_imp _ hls '\n' (by rw [hu]; simp)
        exact hnone rfl
      · rw [hls] at h
        cases h

/-- Main invariant of step 3: no line of its output is a page-number
artifact line (the regex would have removed it). -/
theorem stripPage_noTokenLines : ∀ (n : Nat) (w : List Char), w.length ≤ n →
    ∀ l ∈ linesOf (stripPageAux true w), tokenFormB l = false := by
  intro n
  induction n with
  | zero =>
    intro w hw l hl
    have : w = [] := List.length_eq_zero.mp (Nat.le_zero.mp hw)
    subst this
    rw [stripPageAux_nil] at hl
    have : l = [] := by simpa [linesOf] using hl
    subst this
    exact tokenFormB_nil
  | succ n ih =>
    intro w hlen l hl
    cases w with
    | nil =>
      rw [stripPageAux_nil] at hl
      have : l = [] := by simpa [linesOf] using hl
      subst this
      exact tokenFormB_nil
    | cons c cs =>
      have hcs : cs.length ≤ n := by simpa using Nat.le_of_succ_le_succ hlen
      rcases hm : pageNumMatch (c :: cs) with _ | ⟨b, rest⟩
      · -- no match at this line start: the line is copied and is not an
        -- artifact line, by `pageNumMatch_fail_line`
        rw [stripPageAux_true_none hm] at hl
        by_cases hc : c = '\n'
        · subst hc
          rw [show (decide ('\n' = '\n')) = true by simp] at hl
          rw [linesOf_cons_nl] at hl
          rcases List.mem_cons.mp hl with rfl | hl
          · exact tokenFormB_nil
          · exact ih cs hcs l hl
        · have hc' : (decide (c = '\n')) = false := by simp [hc]
          rw [hc'] at hl
          rcases hsp : cs.dropWhile (fun x => x != '\n') with _ | ⟨d, z⟩
          · -- the rest of the input has no newline: a single copied line
            have hnn : ∀ x ∈ cs, x ≠ '\n' := by
              have hall := List.dropWhile_eq_nil_iff.mp hsp
              intro x hx
              simpa using hall x hx
            rw [stripPageAux_false_no_nl cs hnn] at hl
            have hlns : linesOf (c :: cs) = [c :: cs] := by
              refine linesOf_no_nl _ ?_
              intro x hx
              rcases List.mem_cons.mp hx with rfl | hx
              · exact hc
              · exact hnn x hx
            rw [hlns] at hl
            have hleq : l = c :: cs := by simpa using hl
            subst hleq
            have htk : cs.takeWhile (fun x => x != '\n') = cs := by
              have h2 := List.takeWhile_append_dropWhile
                (p := fun x => x != '\n') (l := cs)
              rw [hsp, List.append_nil] at h2
              exact h2
            have hfail := pageNumMatch_fail_line c cs hc hm
            rw [htk] at hfail
            exact hfail
          · -- split the input at its first newline
            have hd : d = '\n' := by
              have h2 := dropWhile_cons_head (p := fun x => x != '\n') cs hsp
              simpa using h2
            subst hd
            have hA : ∀ x ∈ cs.takeWhile (fun x => x != '\n'), x ≠ '\n' := by
              intro x hx
              simpa using List.mem_takeWhile_imp hx
            have hcs2 : cs = cs.takeWhile (fun x => x != '\n') ++ '\n' :: z := by
              conv_lhs => rw [← List.takeWhile_append_dropWhile
                (p := fun x => x != '\n') (l := cs)]
              rw [hsp]
            rw [show (c :: stripPageAux false cs = c :: stripPageAux false cs) from rfl] at hl
            rw [hcs2, stripPageAux_false_split _ _ hA] at hl
            have hlq : linesOf (c :: (cs.takeWhile (fun x => x != '\n')
                ++ '\n' :: stripPageAux true z))
                = (c :: cs.takeWhile (fun x => x != '\n'))
                    :: linesOf (stripPageAux true z) := by
              rw [show (c :: (cs.takeWhile (fun x => x != '\n')
                    ++ '\n' :: stripPageAux true z)
                  = (c :: cs.takeWhile (fun x => x != '\n'))
                    ++ '\n' :: stripPageAux true z) from rfl]
              rw [linesOf_append_no_nl _ _ (by
                intro x hx
                rcases List.mem_cons.mp hx with rfl | hx
                · exact hc
                · exact hA x hx)]
              rw [linesOf_cons_nl]
              simp
            rw [hlq] at hl
            rcases List.mem_cons.mp hl with rfl | hl
            · exact pageNumMatch_fail_line c cs hc hm
            · have hlencs : cs.length
                  = (cs.takeWhile (fun x => x != '\n')).length + (z.length + 1) := by
                conv_lhs => rw [hcs2]
                simp [List.length_append]
              exact ih z (by omega) l hl
      · -- a match: the matched span is deleted and scanning resumes
        rw [stripPageAux_true_some hm] at hl
        obtain ⟨hlt, hshape⟩ := pageNumMatch_some_shape _ _ _ hm
        rcases hshape with rfl | ⟨z, rfl⟩
        · rw [stripPageAux_nil] at hl
          have : l = [] := by simpa [linesOf] using hl
          subst this
          exact tokenFormB_nil
        · have hz : z.length ≤ n := by
            simp only [List.length_cons] at hlt
            omega
          cases b with
          | true =>
            exact ih ('\n' :: z) (Nat.lt_succ_iff.mp (Nat.lt_of_lt_of_le hlt hlen)) l hl
          | false =>
            have hfs : stripPageAux false ('\n' :: z) = '\n' :: stripPageAux true z := by
              rw [stripPageAux_false_cons]
              simp
            rw [hfs, linesOf_cons_nl] at hl
            rcases List.mem_cons.mp hl with rfl | hl
            · exact tokenFormB_nil
            · exact ih z hz l hl

/-! putting the pieces together for C5 -/

theorem tokenFormB_true_intro (t w2 : List Char) (ht : t ≠ [])
    (hp : ∀ c ∈ t, isPageNumChar c = true) (hw : ∀ c ∈ w2, isWsChar c = true) :
    tokenFormB (t ++ w2) = true := by
  cases t with
  | nil => exact absurd rfl ht
  | cons t0 t' =>
    unfold tokenFormB
    dsimp only
    rw [List.cons_append, dropWhile_cons_neg _ (pageNum_not_ws (hp t0 (by simp)))]
    have h1 := takeWhile_append_all (p := isPageNumChar) (a := t0 :: t') w2 hp
    have h2 := dropWhile_append_all (p := isPageNumChar) (a := t0 :: t') w2 hp
    rw [List.cons_append] at h1 h2
    rw [h1, h2]
    cases hw2 : w2 with
    | nil => simp
    | cons d w2' =>
      have hd : isPageNumChar d = false := by
        by_contra hdp
        rw [Bool.not_eq_false] at hdp
        have hx := pageNum_not_ws hdp
        rw [hw d (by simp [hw2])] at hx
        cases hx
      rw [takeWhile_cons_neg _ hd, dropWhile_cons_neg _ hd]
      simp only [List.append_nil, Bool.and_eq_true, List.all_eq_true]
      exact ⟨by simp, fun c hc => hw c (by rw [hw2]; exact hc)⟩

theorem headD_mem_linesOf (x : List Char) : (linesOf x).headD [] ∈ linesOf x := by
  rcases h : linesOf x with _ | ⟨hd, tl⟩
  · exact absurd h (linesOf_ne_nil x)
  · simp

theorem mem_of_mem_linesOf : ∀ (x l : List Char), l ∈ linesOf x → ∀ c ∈ l, c ∈ x := by
  intro x
  induction x with
  | nil =>
    intro l hl c hc
    have : l = [] := by simpa [linesOf] using hl
    subst this
    simp at hc
  | cons d ds ih =>
    intro l hl c hc
    by_cases hd : d = '\n'
    · subst hd
      rw [linesOf_cons_nl] at hl
      rcases List.mem_cons.mp hl with rfl | hl
      · simp at hc
      · exact List.mem_cons_of_mem _ (ih l hl c hc)
    · rw [linesOf_cons_other _ hd] at hl
      rcases List.mem_cons.mp hl with rfl | hl
      · rcases List.mem_cons.mp hc with rfl | hc
        · simp
        · exact List.mem_cons_of_mem _
            (ih _ (headD_mem_linesOf ds) c hc)
      · exact List.mem_cons_of_mem _ (ih l (List.mem_of_mem_tail hl) c hc)

theorem tokens_eq_nil_imp : ∀ (n : Nat) (cs : List Char), cs.length ≤ n →
    tokens cs = [] → ∀ c ∈ cs, isWsChar c = true := by
  intro n
  induction n with
  | zero =>
    intro cs hlen _ c hc
    have : cs = [] := List.length_eq_zero.mp (Nat.le_zero.mp hlen)
    subst this
    simp at hc
  | succ n ih =>
    intro cs hlen htok c hc
    cases cs with
    | nil => simp at hc
    | cons d ds =>
      by_cases hd : isWsChar d = true
      · rw [tokens_cons_ws _ hd] at htok
        rcases List.mem_cons.mp hc with rfl | hc
        · exact hd
        · exact ih ds (by simpa using Nat.le_of_succ_le_succ hlen) htok c hc
      · rw [Bool.not_eq_true] at hd
        rw [tokens_cons_nonws _ hd] at htok
        cases htok

theorem tokens_single_decomp : ∀ (n : Nat) (v : List Char), v.length ≤ n →
    ∀ t, tokens v = [t] →
    ∃ W1 W2, v = W1 ++ t ++ W2
      ∧ (∀ c ∈ W1, isWsChar c = true) ∧ (∀ c ∈ W2, isWsChar c = true) := by
  intro n
  induction n with
  | zero =>
    intro v hlen t htok
    have : v = [] := List.length_eq_zero.mp (Nat.le_zero.mp hlen)
    subst this
    rw [tokens_nil] at htok
    cases htok
  | succ n ih =>
    intro v hlen t htok
    cases v with
    | nil =>
      rw [tokens_nil] at htok
      cases htok
    | cons d ds =>
      by_cases hd : isWsChar d = true
      · rw [tokens_cons_ws _ hd] at htok
        obtain ⟨W1, W2, heq, hW1, hW2⟩ :=
          ih ds (by simpa using Nat.le_of_succ_le_succ hlen) t htok
        refine ⟨d :: W1, W2, by rw [heq]; rfl, ?_, hW2⟩
        intro c hc
        rcases List.mem_cons.mp hc with rfl | hc
        · exact hd
        · exact hW1 c hc
      · rw [Bool.not_eq_true] at hd
        rw [tokens_cons_nonws _ hd] at htok
        obtain ⟨h1, h2⟩ := List.cons.inj htok
        refine ⟨[], ds.dropWhile isNonWs, ?_, by simp, ?_⟩
        · rw [List.nil_append, ← h1, List.cons_append,
            List.takeWhile_append_dropWhile]
        · intro c hc
          have hdw : (ds.dropWhile isNonWs).length ≤ n := by
            have h3 : (ds.dropWhile isNonWs).length ≤ ds.length :=
              (List.dropWhile_sublist _).length_le
            have h4 : ds.length ≤ n := by simpa using Nat.le_of_succ_le_succ hlen
            omega
          exact tokens_eq_nil_imp n _ hdw h2 c hc

theorem artifact_line_exists : ∀ (W1 t W2 : List Char), t ≠ [] →
    (∀ c ∈ t, isPageNumChar c = true) → (∀ c ∈ W1, isWsChar c = true) →
    (∀ c ∈ W2, isWsChar c = true) →
    ∃ l ∈ linesOf (W1 ++ t ++ W2), tokenFormB l = true := by
  intro W1
  induction W1 with
  | nil =>
    intro t W2 ht hp _ hW2
    have hnl : ∀ c ∈ t, c ≠ '\n' := fun c hc =>
      nonws_ne_nl (pageNum_nonws (hp c hc))
    rw [List.nil_append, linesOf_append_no_nl t W2 hnl]
    refine ⟨t ++ (linesOf W2).headD [], by simp, ?_⟩
    refine tokenFormB_true_intro t _ ht hp ?_
    intro c hc
    exact hW2 c (mem_of_mem_linesOf W2 _ (headD_mem_linesOf W2) c hc)
  | cons d W1' ih =>
    intro t W2 ht hp hW1 hW2
    have hdws : isWsChar d = true := hW1 d (by simp)
    obtain ⟨l, hl, hform⟩ := ih t W2 ht hp (fun c hc => hW1 c (by simp [hc])) hW2
    by_cases hd : d = '\n'
    · subst hd
      rw [show (('\n' :: W1') ++ t ++ W2 = '\n' :: (W1' ++ t ++ W2)) from rfl,
        linesOf_cons_nl]
      exact ⟨l, List.mem_cons_of_mem _ hl, hform⟩
    · rw [show ((d :: W1') ++ t ++ W2 = d :: (W1' ++ t ++ W2)) from rfl,
        linesOf_cons_other _ hd]
      rcases hsplit : linesOf (W1' ++ t ++ W2) with _ | ⟨x0, xt⟩
      · exact absurd hsplit (linesOf_ne_nil _)
      · rw [hsplit] at hl
        rcases List.mem_cons.mp hl with rfl | hl
        · refine ⟨d :: l, by simp [hsplit], ?_⟩
          rw [tokenFormB_cons_ws _ hdws]
          exact hform
        · exact ⟨l, by simp [hsplit, hl], hform⟩

theorem pageNumMatch_nil : pageNumMatch [] = none := by
  rfl

theorem pageNumMatch_some_no_nl_imp (l : List Char) (b : Bool) (r : List Char)
    (hnl : ∀ c ∈ l, c ≠ '\n') (hm : pageNumMatch l = some (b, r)) :
    (l.dropWhile isWsChar).takeWhile isPageNumChar ≠ []
    ∧ ((l.dropWhile isWsChar).dropWhile isPageNumChar).dropWhile isWsChar = [] := by
  unfold pageNumMatch at hm
  dsimp only at hm
  by_cases ht : ((l.dropWhile isWsChar).takeWhile isPageNumChar).isEmpty = true
  · rw [if_pos ht] at hm
    cases hm
  · rw [if_neg ht] at hm
    refine ⟨by simpa [List.isEmpty_iff] using ht, ?_⟩
    by_cases hr3 : (((l.dropWhile isWsChar).dropWhile isPageNumChar).dropWhile isWsChar).isEmpty = true
    · simpa [List.isEmpty_iff] using hr3
    · rw [if_neg hr3] at hm
      rcases hls : lastNlSplit (((l.dropWhile isWsChar).dropWhile isPageNumChar).takeWhile isWsChar)
        with _ | ⟨u1, u2⟩
      · rw [hls] at hm
        cases hm
      · obtain ⟨hueq, z, hz⟩ := lastNlSplit_eq _ _ _ hls
        have hmem : '\n' ∈ ((l.dropWhile isWsChar).dropWhile isPageNumChar).takeWhile isWsChar := by
          rw [hueq, hz]
          simp
        have h1 : '\n' ∈ (l.dropWhile isWsChar).dropWhile isPageNumChar :=
          (List.takeWhile_sublist _).subset hmem
        have h2 : '\n' ∈ l.dropWhile isWsChar :=
          (List.dropWhile_sublist _).subset h1
        have h3 : '\n' ∈ l := (List.dropWhile_sublist _).subset h2
        exact absurd rfl (hnl '\n' h3)

theorem stripPage_id (r : List Char) (hnl : ∀ c ∈ r, c ≠ '\n')
    (hm : pageNumMatch r = none) : stripPageNumberLines r = r := by
  unfold stripPageNumberLines
  cases r with
  | nil => exact stripPageAux_nil true
  | cons c cs =>
    rw [stripPageAux_true_none hm]
    have hc : (decide (c = '\n')) = false := by simp [hnl c (by simp)]
    rw [hc, stripPageAux_false_no_nl cs (fun x hx => hnl x (by simp [hx]))]

/-- The quote-replacement step is the identity, so the cleaner is steps
1–4. -/
theorem cleanChars_eq_norm (cs : List Char) :
    cleanChars cs
      = normalizeWs (stripPageNumberLines (collapseNewlines (repairHyphens cs))) := by
  unfold cleanChars
  dsimp only
  rw [pyReplace_self, pyReplace_self, pyReplace_self]

/-- The cleaner is idempotent at character level. -/
theorem cleanChars_idempotent (cs : List Char) :
    cleanChars (cleanChars cs) = cleanChars cs := by
  have hr : cleanChars cs = List.intercalate [' ']
      (tokens (stripPageNumberLines (collapseNewlines (repairHyphens cs)))) := by
    rw [cleanChars_eq_norm, normalizeWs_eq_intercalate]
  have htoks : ∀ t ∈ tokens (stripPageNumberLines (collapseNewlines (repairHyphens cs))),
      t ≠ [] ∧ ∀ c ∈ t, isNonWs c = true :=
    fun t ht => tokens_all _ _ (Nat.le_refl _) t ht
  have hnl : ∀ c ∈ cleanChars cs, c ≠ '\n' := by
    intro c hc
    rw [hr] at hc
    rcases mem_intercalate_space _ c hc with rfl | ⟨t, ht, hct⟩
    · decide
    · exact nonws_ne_nl ((htoks t ht).2 c hct)
  have htr : tokens (cleanChars cs)
      = tokens (stripPageNumberLines (collapseNewlines (repairHyphens cs))) := by
    rw [hr]
    exact tokens_intercalate _ htoks
  have hpm : pageNumMatch (cleanChars cs) = none := by
    rcases ho : pageNumMatch (cleanChars cs) with _ | ⟨b, rest⟩
    · rfl
    · exfalso
      rcases htv : tokens (stripPageNumberLines (collapseNewlines (repairHyphens cs)))
        with _ | ⟨t1, ts⟩
      · rw [htv] at hr
        rw [hr] at ho
        rw [show List.intercalate [' '] ([] : List (List Char)) = [] by
          simp [List.intercalate]] at ho
        rw [pageNumMatch_nil] at ho
        cases ho
      · obtain ⟨ht1ne, ht1nw⟩ := htoks t1 (by rw [htv]; simp)
        obtain ⟨c1, t1', rfl⟩ : ∃ c1 t1', t1 = c1 :: t1' := by
          cases t1 with
          | nil => exact absurd rfl ht1ne
          | cons a b => exact ⟨a, b, rfl⟩
        have hrshape : ∃ X, cleanChars cs = c1 :: X := by
          rw [hr, htv]
          cases ts with
          | nil => exact ⟨t1', by simp [List.intercalate]⟩
          | cons t2 ts2 =>
            rw [intercalate_cons_ne_nil _ _ _ (by simp)]
            exact ⟨t1' ++ ([' '] ++ List.intercalate [' '] (t2 :: ts2)), by simp⟩
        obtain ⟨X, hX⟩ := hrshape
        have hdr : (cleanChars cs).dropWhile isWsChar = cleanChars cs := by
          rw [hX]
          exact dropWhile_cons_neg _ (isNonWs_iff.mp (ht1nw c1 (by simp)))
        obtain ⟨hT, hR3⟩ := pageNumMatch_some_no_nl_imp _ _ _ hnl ho
        rw [hdr] at hT hR3
        have hdall : ∀ c ∈ (cleanChars cs).dropWhile isPageNumChar, isWsChar c = true :=
          List.dropWhile_eq_nil_iff.mp hR3
        have hu : (cleanChars cs).dropWhile isPageNumChar = []
            ∨ ∃ d z, (cleanChars cs).dropWhile isPageNumChar = d :: z ∧ isWsChar d = true := by
          rcases hdw : (cleanChars cs).dropWhile isPageNumChar with _ | ⟨d, z⟩
          · exact Or.inl rfl
          · exact Or.inr ⟨d, z, rfl, hdall d (by rw [hdw]; simp)⟩
        have htokr : tokens (cleanChars cs)
            = [(cleanChars cs).takeWhile isPageNumChar] := by
          conv_lhs => rw [← List.takeWhile_append_dropWhile
            (p := isPageNumChar) (l := cleanChars cs)]
          rw [tokens_head_run _ _ hT
            (fun c hc => pageNum_nonws (List.mem_takeWhile_imp hc)) hu]
          rw [tokens_nil_of_all_ws _ hdall]
        have hTall : ∀ c ∈ (cleanChars cs).takeWhile isPageNumChar, isPageNumChar c = true :=
          fun c hc => List.mem_takeWhile_imp hc
        have hsingle : tokens (stripPageNumberLines (collapseNewlines (repairHyphens cs)))
            = [(cleanChars cs).takeWhile isPageNumChar] := by
          rw [← htr, htokr]
        obtain ⟨W1, W2, hveq, hW1, hW2⟩ :=
          tokens_single_decomp
            (stripPageNumberLines (collapseNewlines (repairHyphens cs))).length
            _ (Nat.le_refl _) _ hsingle
        obtain ⟨l, hl, hform⟩ := artifact_line_exists W1 _ W2 hT hTall hW1 hW2
        rw [← hveq] at hl
        rw [show stripPageNumberLines (collapseNewlines (repairHyphens cs))
            = stripPageAux true (collapseNewlines (repairHyphens cs)) from rfl] at hl
        have hfalse := stripPage_noTokenLines
          (collapseNewlines (repairHyphens cs)).length
          (collapseNewlines (repairHyphens cs)) (Nat.le_refl _) l hl
        rw [hform] at hfalse
        cases hfalse
  rw [cleanChars_eq_norm (cleanChars cs)]
  rw [repairHyphens_no_nl _ hnl, collapseNewlines_no_nl _ hnl,
    stripPage_id _ hnl hpm]
  rw [normalizeWs_eq_intercalate, htr, ← hr]

/-- C5: for every input string, the text normalizer `clean_ocr_text` is
idempotent: cleaning an already-cleaned string changes nothing. -/
theorem C5_clean_ocr_text_idempotent (s : String) :
    clean_ocr_text (clean_ocr_text s) = clean_ocr_text s := by
  unfold clean_ocr_text
  exact congrArg String.mk (cleanChars_idempotent s.data)

end DocAnalyzer
